import Mathlib

/-!
# Base64 codec of `media/libstagefright/foundation/base64.cpp`

A shallow embedding of the four functions of `base64.cpp` and theorems about
them.

Conventions of the embedding

* a `char` is a `Char`; the code only compares characters and subtracts
  character codes, which is done here on `Char.toNat`;
* an `AString` is a `List Char`: it is a sized string (line 179 fills one
  with `setTo(base64url, outLen)` from an array that has no terminator), so it
  may hold the NUL character and `size()` counts it; `c_str()` of it is the
  same list followed by a terminating NUL, so `strlen` stops at the first NUL
  of the list or at its end;
* the text a `const char *` argument denotes is `cstr s`, the characters before
  the first NUL, and its length is `strlen s`; for a list without NUL these are
  the list and its length (`cstr_eq_self`, `strlen_eq_length`);
* a byte (`uint8_t`) is a `Nat` below 256, the 32-bit accumulator is a `Nat`
  reduced modulo `2 ^ 32` after the shift, a store into a `uint8_t` reduces
  modulo 256;
* `size_t` values are `Nat`; the two subtractions of the decoder
  (`n - padding` and `(n / 4) * 3 - padding`) never go below zero, see
  `paddingCount_le_outLen`;
* the output buffer is a `List Nat`, `out[j] = v` is `List.set`, the null
  pointer is `none`.
-/

namespace Base64

/-! ## Strings -/

/-- The NUL character, which terminates a C string. -/
def NUL : Char := Char.ofNat 0

/-- `strlen(s)`: the number of characters before the first NUL. -/
def strlen : List Char → Nat
  | [] => 0
  | c :: cs => if c = NUL then 0 else strlen cs + 1

/-- The characters a `const char *` argument denotes: those before the first
NUL, `s[0] .. s[strlen(s) - 1]`. -/
def cstr (s : List Char) : List Char := s.take (strlen s)

/-! ## Decoder (`base64.cpp` lines 24-106) -/

/-- Lines 48-59: the padding count, probing `s[n-1]`, `s[n-2]`, `s[n-3]`. -/
def paddingCount (s : List Char) (n : Nat) : Nat :=
  if 1 ≤ n ∧ s[n - 1]? = some '=' then
    if 2 ≤ n ∧ s[n - 2]? = some '=' then
      if 3 ≤ n ∧ s[n - 3]? = some '=' then 3 else 2
    else 1
  else 0

/-- Lines 72-91: the 6-bit value of the character `c` read at index `i`, or
`none` where the code returns `false`. -/
def charValue (c : Char) (i n padding : Nat) : Option Nat :=
  if 'A'.toNat ≤ c.toNat ∧ c.toNat ≤ 'Z'.toNat then some (c.toNat - 'A'.toNat)
  else if 'a'.toNat ≤ c.toNat ∧ c.toNat ≤ 'z'.toNat then some (26 + c.toNat - 'a'.toNat)
  else if '0'.toNat ≤ c.toNat ∧ c.toNat ≤ '9'.toNat then some (52 + c.toNat - '0'.toNat)
  else if c = '+' ∨ c = '-' then some 62
  else if c = '/' ∨ c = '_' then some 63
  else if c ≠ '=' then none
  else if i < n - padding then none
  else some 0

/-- Lines 96-98: the three guarded stores at the end of a group; returns the
new `j` and the new buffer. -/
def flushGroup (outLen accum j : Nat) (out : List Nat) : Nat × List Nat :=
  let r1 : Nat × List Nat :=
    if j < outLen then (j + 1, out.set j ((accum >>> 16) % 256)) else (j, out)
  let r2 : Nat × List Nat :=
    if r1.1 < outLen then (r1.1 + 1, r1.2.set r1.1 ((accum >>> 8) &&& 0xff)) else r1
  if r2.1 < outLen then (r2.1 + 1, r2.2.set r2.1 (accum &&& 0xff)) else r2

/-- Lines 70-102: the main loop, run over the characters `s[i], s[i+1], ...`
still to be read, with the loop state `i`, `j`, `accum`, `out`. The result is
`(false, j, out)` where the code returns `false` and `(true, j, out)` when the
loop runs to its end. -/
def decodeLoop (n padding outLen : Nat) :
    List Char → Nat → Nat → Nat → List Nat → Bool × Nat × List Nat
  | [], _, j, _, out => (true, j, out)
  | c :: cs, i, j, accum, out =>
    match charValue c i n padding with
    | none => (false, j, out)
    | some value =>
      let accum1 := ((accum <<< 6) % 2 ^ 32) ||| value
      if (i + 1) % 4 = 0 then
        let r := flushGroup outLen accum1 j out
        decodeLoop n padding outLen cs (i + 1) r.1 0 r.2
      else
        decodeLoop n padding outLen cs (i + 1) j accum1 out

/-- Lines 41-106, `bool decodeBase64(uint8_t *out, size_t *inOutBufSize,
const char *s)`. The result is the returned flag, the buffer after the call
and the value of `*inOutBufSize` after the call. -/
def decodeBase64Buf (out : Option (List Nat)) (inOutBufSize : Nat) (s : List Char) :
    Bool × Option (List Nat) × Nat :=
  let n := strlen s
  if n % 4 ≠ 0 then (false, out, inOutBufSize)
  else
    let padding := paddingCount s n
    let outLen := (n / 4) * 3 - padding
    match out with
    | none => (false, none, inOutBufSize)
    | some buf =>
      if inOutBufSize < outLen then (false, some buf, inOutBufSize)
      else
        let r := decodeLoop n padding outLen (s.take n) 0 0 0 buf
        if r.1 then (true, some r.2.2, r.2.1) else (false, some r.2.2, inOutBufSize)

/-- Modelled from the spec: `new ABuffer(bufSize)` of `ABuffer.h`, which is not
part of the sources at hand: "allocates and returns a fresh buffer". The bytes
of a fresh buffer are not determined; they are taken as zero here, and
`decodeBase64_fresh_irrelevant` shows that no result depends on them. -/
def newABuffer (bufSize : Nat) : List Nat := List.replicate bufSize 0

/-- Lines 24-39, `sp<ABuffer> decodeBase64(const AString &s)`; `none` is the
null result, `some bytes` the buffer after `setRange(0, bufSize)`. -/
def decodeBase64 (s : List Char) : Option (List Nat) :=
  let n := s.length
  if n % 4 ≠ 0 then none
  else
    let bufSize := n / 4 * 3
    let buf := newABuffer bufSize
    match decodeBase64Buf (some buf) bufSize s with
    | (true, some data, bufSize1) => some (data.take bufSize1)
    | _ => none

/-! ## Encoder (`base64.cpp` lines 108-182) -/

/-- Lines 108-120. -/
def encode6Bit (x : Nat) : Char :=
  if x ≤ 25 then Char.ofNat ('A'.toNat + x)
  else if x ≤ 51 then Char.ofNat ('a'.toNat + x - 26)
  else if x ≤ 61 then Char.ofNat ('0'.toNat + x - 52)
  else if x = 62 then '+'
  else '/'

/-- Lines 122-161, `encodeBase64`: the loop over the full groups of three
bytes, then the `switch (size % 3)` on what is left. -/
def encodeBase64 : List Nat → List Char
  | x1 :: x2 :: x3 :: rest =>
    encode6Bit (x1 >>> 2) ::
    encode6Bit (((x1 <<< 4) ||| (x2 >>> 4)) &&& 0x3f) ::
    encode6Bit (((x2 <<< 2) ||| (x3 >>> 6)) &&& 0x3f) ::
    encode6Bit (x3 &&& 0x3f) :: encodeBase64 rest
  | [x1, x2] =>
    [encode6Bit (x1 >>> 2),
     encode6Bit (((x1 <<< 4) ||| (x2 >>> 4)) &&& 0x3f),
     encode6Bit ((x2 <<< 2) &&& 0x3f),
     '=']
  | [x1] =>
    [encode6Bit (x1 >>> 2), encode6Bit ((x1 <<< 4) &&& 0x3f), '=', '=']
  | [] => []

/-- Lines 170-177: the substitution applied to one character. -/
def urlChar (c : Char) : Char :=
  if c = '+' then '-' else if c = '/' then '_' else c

/-- Lines 163-182, `encodeBase64Url`. -/
def encodeBase64Url (data : List Nat) : List Char :=
  let out := encodeBase64 data
  if out.contains '+' ∨ out.contains '/' then out.map urlChar else out


/-! ## Notions used to state the properties -/

/-- Two characters that are equal or are the two spellings of the value 62
(`+` and `-`) or of the value 63 (`/` and `_`). -/
def swapRel (a b : Char) : Prop :=
  a = b ∨ (a = '-' ∧ b = '+') ∨ (a = '+' ∧ b = '-') ∨ (a = '_' ∧ b = '/') ∨ (a = '/' ∧ b = '_')

/-- The text `t` is the text `s` with some of its `-` replaced by `+`, some of
its `_` by `/`, or the reverse, position by position. -/
def AlphaSwap (s t : List Char) : Prop := List.Forall₂ swapRel s t

/-- The characters the decoder knows: `A-Z`, `a-z`, `0-9`, `+`, `/`, `-`, `_`
and `=`. -/
def inAlphabet (c : Char) : Prop :=
  ('A'.toNat ≤ c.toNat ∧ c.toNat ≤ 'Z'.toNat) ∨ ('a'.toNat ≤ c.toNat ∧ c.toNat ≤ 'z'.toNat) ∨
  ('0'.toNat ≤ c.toNat ∧ c.toNat ≤ '9'.toNat) ∨
  c = '+' ∨ c = '/' ∨ c = '-' ∨ c = '_' ∨ c = '='

instance : DecidablePred inAlphabet := fun c => by
  unfold inAlphabet
  infer_instance

/-- The number of `=` characters at the end of a text. -/
def trailingPad (s : List Char) : Nat :=
  (s.reverse.takeWhile (fun c => c == '=')).length

/-- The standard alphabet as a table: the character at index `v` stands for
the value `v` (`A-Z` for 0-25, `a-z` for 26-51, `0-9` for 52-61, `+` for 62,
`/` for 63). -/
def stdAlphabet : List Char :=
  ['A', 'B', 'C', 'D', 'E', 'F', 'G', 'H'] ++
  ['I', 'J', 'K', 'L', 'M', 'N', 'O', 'P'] ++
  ['Q', 'R', 'S', 'T', 'U', 'V', 'W', 'X'] ++
  ['Y', 'Z', 'a', 'b', 'c', 'd', 'e', 'f'] ++
  ['g', 'h', 'i', 'j', 'k', 'l', 'm', 'n'] ++
  ['o', 'p', 'q', 'r', 's', 't', 'u', 'v'] ++
  ['w', 'x', 'y', 'z', '0', '1', '2', '3'] ++
  ['4', '5', '6', '7', '8', '9', '+', '/']

/-- The standard-alphabet character of the value `v`. -/
def stdChar (v : Nat) : Char := stdAlphabet.getD v '/'

/-- The URL-safe alphabet applied directly to a 6-bit value: as `encode6Bit`,
with `-` for 62 and `_` for 63. -/
def encode6BitUrl (x : Nat) : Char :=
  if x ≤ 25 then Char.ofNat ('A'.toNat + x)
  else if x ≤ 51 then Char.ofNat ('a'.toNat + x - 26)
  else if x ≤ 61 then Char.ofNat ('0'.toNat + x - 52)
  else if x = 62 then '-'
  else '_'

/-- The direct URL-safe encoder the specification compares `encodeBase64Url`
with: the packing of `encodeBase64`, each value written with `encode6BitUrl`. -/
def encodeUrlDirect : List Nat → List Char
  | x1 :: x2 :: x3 :: rest =>
    encode6BitUrl (x1 >>> 2) ::
    encode6BitUrl (((x1 <<< 4) ||| (x2 >>> 4)) &&& 0x3f) ::
    encode6BitUrl (((x2 <<< 2) ||| (x3 >>> 6)) &&& 0x3f) ::
    encode6BitUrl (x3 &&& 0x3f) :: encodeUrlDirect rest
  | [x1, x2] =>
    [encode6BitUrl (x1 >>> 2),
     encode6BitUrl (((x1 <<< 4) ||| (x2 >>> 4)) &&& 0x3f),
     encode6BitUrl ((x2 <<< 2) &&& 0x3f),
     '=']
  | [x1] =>
    [encode6BitUrl (x1 >>> 2), encode6BitUrl ((x1 <<< 4) &&& 0x3f), '=', '=']
  | [] => []

/-- The value a character has in the alphabet, with `=` counting as 0: its
index in the standard table, 62 for `-` and 63 for `_`. -/
def sextetValue (c : Char) : Nat :=
  if c = '=' then 0 else if c = '-' then 62 else if c = '_' then 63 else stdAlphabet.indexOf c

/-! ## The loop with a record of its stores -/

/-- Lines 96-98 once more, with a record of what is stored: the result of
`flushGroup`, and the list of the indices `j` of the stores `out[j++] = ...`
that are executed. -/
def flushGroupLog (outLen accum j : Nat) (out : List Nat) : (Nat × List Nat) × List Nat :=
  let r1 : (Nat × List Nat) × List Nat :=
    if j < outLen then ((j + 1, out.set j ((accum >>> 16) % 256)), [j]) else ((j, out), [])
  let r2 : (Nat × List Nat) × List Nat :=
    if r1.1.1 < outLen then
      ((r1.1.1 + 1, r1.1.2.set r1.1.1 ((accum >>> 8) &&& 0xff)), r1.2 ++ [r1.1.1])
    else r1
  if r2.1.1 < outLen then
    ((r2.1.1 + 1, r2.1.2.set r2.1.1 (accum &&& 0xff)), r2.2 ++ [r2.1.1])
  else r2

/-- Lines 70-102 once more, with a record: the result of `decodeLoop`, the
indices stored to, and the values `accum` has at line 95 at the end of each
group, before it is reset. -/
def decodeLoopLog (n padding outLen : Nat) :
    List Char → Nat → Nat → Nat → List Nat → (Bool × Nat × List Nat) × List Nat × List Nat
  | [], _, j, _, out => ((true, j, out), [], [])
  | c :: cs, i, j, accum, out =>
    match charValue c i n padding with
    | none => ((false, j, out), [], [])
    | some value =>
      let accum1 := ((accum <<< 6) % 2 ^ 32) ||| value
      if (i + 1) % 4 = 0 then
        let r := flushGroupLog outLen accum1 j out
        let t := decodeLoopLog n padding outLen cs (i + 1) r.1.1 0 r.1.2
        (t.1, r.2 ++ t.2.1, accum1 :: t.2.2)
      else
        decodeLoopLog n padding outLen cs (i + 1) j accum1 out

/-- The run of the recorded loop that `decodeBase64Buf` makes on the text `s`
with the buffer `buf`, once its guards are passed. -/
def decodeRun (s : List Char) (buf : List Nat) :
    (Bool × Nat × List Nat) × List Nat × List Nat :=
  decodeLoopLog (strlen s) (paddingCount s (strlen s))
    (strlen s / 4 * 3 - paddingCount s (strlen s)) (s.take (strlen s)) 0 0 0 buf

/-! ## Arithmetic of the bit operations -/

theorem shl6_or (a v : Nat) (ha : a < 2 ^ 18) (hv : v < 64) :
    ((a <<< 6) % 2 ^ 32) ||| v = a * 64 + v := by
  have h1 : a <<< 6 = 2 ^ 6 * a := by rw [Nat.shiftLeft_eq, Nat.mul_comm]
  have h2 : 2 ^ 6 * a < 2 ^ 32 := by omega
  rw [h1, Nat.mod_eq_of_lt h2, ← Nat.mul_add_lt_is_or (by omega) a]
  omega

theorem and_3f (x : Nat) : x &&& 0x3f = x % 64 :=
  Nat.and_pow_two_sub_one_eq_mod x 6

theorem and_ff (x : Nat) : x &&& 0xff = x % 256 :=
  Nat.and_pow_two_sub_one_eq_mod x 8

theorem shl_or_shr (a b i k : Nat) (hb : b / 2 ^ k < 2 ^ i) :
    (a <<< i) ||| (b >>> k) = a * 2 ^ i + b / 2 ^ k := by
  rw [Nat.shiftLeft_eq, Nat.shiftRight_eq_div_pow, Nat.mul_comm a,
    ← Nat.mul_add_lt_is_or hb a]

theorem sextet1 (x1 : Nat) : x1 >>> 2 = x1 / 4 := Nat.shiftRight_eq_div_pow x1 2

theorem sextet2 (x1 x2 : Nat) (h2 : x2 < 256) :
    ((x1 <<< 4) ||| (x2 >>> 4)) &&& 0x3f = (x1 % 4) * 16 + x2 / 16 := by
  rw [and_3f, shl_or_shr x1 x2 4 4 (by omega)]
  omega

theorem sextet3 (x2 x3 : Nat) (h3 : x3 < 256) :
    ((x2 <<< 2) ||| (x3 >>> 6)) &&& 0x3f = (x2 % 16) * 4 + x3 / 64 := by
  rw [and_3f, shl_or_shr x2 x3 2 6 (by omega)]
  omega

theorem sextet2_last (x1 : Nat) : (x1 <<< 4) &&& 0x3f = (x1 % 4) * 16 := by
  rw [and_3f, Nat.shiftLeft_eq]
  omega

theorem sextet3_last (x2 : Nat) : (x2 <<< 2) &&& 0x3f = (x2 % 16) * 4 := by
  rw [and_3f, Nat.shiftLeft_eq]
  omega

/-! ## The two alphabets -/

theorem charValue_lt (c : Char) (i n p v : Nat) (h : charValue c i n p = some v) :
    v < 64 := by
  unfold charValue at h
  simp only [Char.reduceToNat] at h
  split_ifs at h <;> simp only [Option.some.injEq, reduceCtorEq] at h <;> omega

theorem charValue_encode6Bit (v i n p : Nat) (hv : v < 64) :
    charValue (encode6Bit v) i n p = some v := by
  interval_cases v <;> rfl

theorem encode6Bit_ne_pad (v : Nat) : encode6Bit v ≠ '=' := by
  by_cases hv : v < 64
  · interval_cases v <;> decide
  · have h : encode6Bit v = '/' := by
      unfold encode6Bit
      rw [if_neg (by omega), if_neg (by omega), if_neg (by omega), if_neg (by omega)]
    rw [h]; decide

theorem encode6Bit_ne_NUL (v : Nat) : encode6Bit v ≠ NUL := by
  by_cases hv : v < 64
  · interval_cases v <;> decide
  · have h : encode6Bit v = '/' := by
      unfold encode6Bit
      rw [if_neg (by omega), if_neg (by omega), if_neg (by omega), if_neg (by omega)]
    rw [h]; decide

/-! ## One group of the decoder loop -/

theorem decodeLoop_group (n p outLen : Nat) (c0 c1 c2 c3 : Char) (rest : List Char)
    (i j : Nat) (out : List Nat) (v0 v1 v2 v3 : Nat) (hi : i % 4 = 0)
    (h0 : charValue c0 i n p = some v0) (h1 : charValue c1 (i + 1) n p = some v1)
    (h2 : charValue c2 (i + 2) n p = some v2) (h3 : charValue c3 (i + 3) n p = some v3) :
    decodeLoop n p outLen (c0 :: c1 :: c2 :: c3 :: rest) i j 0 out =
      decodeLoop n p outLen rest (i + 4)
        (flushGroup outLen (((v0 * 64 + v1) * 64 + v2) * 64 + v3) j out).1 0
        (flushGroup outLen (((v0 * 64 + v1) * 64 + v2) * 64 + v3) j out).2 := by
  have b0 := charValue_lt _ _ _ _ _ h0
  have b1 := charValue_lt _ _ _ _ _ h1
  have b2 := charValue_lt _ _ _ _ _ h2
  have b3 := charValue_lt _ _ _ _ _ h3
  have e1 : ¬ (i + 1) % 4 = 0 := by omega
  have e2 : ¬ (i + 1 + 1) % 4 = 0 := by omega
  have e3 : ¬ (i + 1 + 1 + 1) % 4 = 0 := by omega
  have e4 : (i + 1 + 1 + 1 + 1) % 4 = 0 := by omega
  have a0 : ((0 <<< 6) % 2 ^ 32) ||| v0 = v0 := by
    rw [shl6_or 0 v0 (by omega) b0]; omega
  have a1 : ((v0 <<< 6) % 2 ^ 32) ||| v1 = v0 * 64 + v1 := shl6_or _ _ (by omega) b1
  have a2 : (((v0 * 64 + v1) <<< 6) % 2 ^ 32) ||| v2 = (v0 * 64 + v1) * 64 + v2 :=
    shl6_or _ _ (by omega) b2
  have a3 : ((((v0 * 64 + v1) * 64 + v2) <<< 6) % 2 ^ 32) ||| v3
      = ((v0 * 64 + v1) * 64 + v2) * 64 + v3 := shl6_or _ _ (by omega) b3
  rw [decodeLoop, h0]
  simp only [a0, if_neg e1]
  rw [decodeLoop, h1]
  simp only [a1, if_neg e2]
  rw [decodeLoop, h2]
  simp only [a2, if_neg e3]
  rw [decodeLoop, h3]
  simp only [a3, if_pos e4]


/-! ## The stores of one group -/

theorem take_set_ge (l : List Nat) (j k a : Nat) (h : j ≤ k) :
    (l.set k a).take j = l.take j :=
  List.ext_getElem? fun i => by
    rw [List.getElem?_take, List.getElem?_take]
    split
    · rw [List.getElem?_set_ne (by omega)]
    · rfl

theorem take_set_succ (l : List Nat) (j a : Nat) (h : j < l.length) :
    (l.set j a).take (j + 1) = l.take j ++ [a] := by
  rw [List.take_succ, take_set_ge l j j a (Nat.le_refl j)]
  simp [List.getElem?_set, h]

theorem flushGroup_eq (outLen a j : Nat) (out : List Nat) :
    flushGroup outLen a j out =
      if j + 3 ≤ outLen then
        (j + 3, ((out.set j ((a >>> 16) % 256)).set (j + 1) ((a >>> 8) &&& 0xff)).set
          (j + 2) (a &&& 0xff))
      else if j + 2 ≤ outLen then
        (j + 2, (out.set j ((a >>> 16) % 256)).set (j + 1) ((a >>> 8) &&& 0xff))
      else if j + 1 ≤ outLen then (j + 1, out.set j ((a >>> 16) % 256))
      else (j, out) := by
  unfold flushGroup
  by_cases h1 : j < outLen
  · by_cases h2 : j + 1 < outLen
    · by_cases h3 : j + 1 + 1 < outLen
      · simp only [h1, h2, h3, if_true]
        rw [if_pos (by omega)]
      · simp only [h1, h2, h3, if_true, if_false]
        rw [if_neg (by omega), if_pos (by omega)]
    · simp only [h1, h2, if_true, if_false]
      rw [if_neg (by omega), if_neg (by omega), if_pos (by omega)]
  · simp only [h1, if_false]
    rw [if_neg (by omega), if_neg (by omega), if_neg (by omega)]

theorem flushGroup_length (outLen a j : Nat) (out : List Nat) :
    (flushGroup outLen a j out).2.length = out.length := by
  rw [flushGroup_eq]
  split_ifs <;> simp

theorem flushGroup_fst (outLen a j : Nat) (out : List Nat) (hj : j ≤ outLen) :
    (flushGroup outLen a j out).1 = min outLen (j + 3) := by
  rw [flushGroup_eq]
  split_ifs <;> simp only [] <;> omega

theorem flushGroup_take (outLen a j : Nat) (out : List Nat) (hj : j ≤ outLen)
    (hlen : outLen ≤ out.length) :
    (flushGroup outLen a j out).2.take (flushGroup outLen a j out).1 =
      out.take j ++ [(a >>> 16) % 256, (a >>> 8) &&& 0xff, a &&& 0xff].take (outLen - j) := by
  rw [flushGroup_eq]
  split_ifs with h3 h2 h1
  · have e : outLen - j = (outLen - j - 3) + 3 := by omega
    simp only []
    rw [take_set_succ _ _ _ (by simp; omega), take_set_succ _ _ _ (by simp; omega),
      take_set_succ _ _ _ (by omega), e]
    simp
  · have e : outLen - j = 2 := by omega
    simp only []
    rw [take_set_succ _ _ _ (by simp; omega), take_set_succ _ _ _ (by omega), e]
    simp
  · have e : outLen - j = 1 := by omega
    simp only []
    rw [take_set_succ _ _ _ (by omega), e]
    simp
  · have e : outLen - j = 0 := by omega
    simp only [e]
    simp

/-! ## The loop on the text of the encoder -/

theorem charValue_pad (i n p : Nat) (h : n - p ≤ i) : charValue '=' i n p = some 0 := by
  unfold charValue
  simp only [Char.reduceToNat]
  rw [if_neg (by omega), if_neg (by omega), if_neg (by omega), if_neg (by decide),
    if_neg (by decide), if_neg (by decide), if_neg (by omega)]

theorem pack3 (x1 x2 x3 : Nat) (h1 : x1 < 256) (h2 : x2 < 256) (h3 : x3 < 256) :
    ((((x1 / 4 * 64 + ((x1 % 4) * 16 + x2 / 16)) * 64 + ((x2 % 16) * 4 + x3 / 64)) * 64
        + x3 % 64) >>> 16) % 256 = x1 ∧
    ((((x1 / 4 * 64 + ((x1 % 4) * 16 + x2 / 16)) * 64 + ((x2 % 16) * 4 + x3 / 64)) * 64
        + x3 % 64) >>> 8) &&& 0xff = x2 ∧
    ((((x1 / 4 * 64 + ((x1 % 4) * 16 + x2 / 16)) * 64 + ((x2 % 16) * 4 + x3 / 64)) * 64
        + x3 % 64)) &&& 0xff = x3 := by
  simp only [and_ff, Nat.shiftRight_eq_div_pow]
  omega

theorem decodeLoop_encode (n p outLen : Nat) (B : List Nat) :
    ∀ (i j : Nat) (out : List Nat), (∀ b ∈ B, b < 256) → i % 4 = 0 →
      j + B.length = outLen → outLen ≤ out.length →
      (B.length % 3 = 2 → n - p ≤ i + 4 * (B.length / 3) + 3) →
      (B.length % 3 = 1 → n - p ≤ i + 4 * (B.length / 3) + 2) →
      ∃ out1, decodeLoop n p outLen (encodeBase64 B) i j 0 out = (true, outLen, out1) ∧
        out1.length = out.length ∧ out1.take outLen = out.take j ++ B := by
  induction B using encodeBase64.induct with
  | case1 x1 x2 x3 rest ih =>
    intro i j out hB hi hj hlen hp2 hp1
    have b1 : x1 < 256 := hB x1 (by simp)
    have b2 : x2 < 256 := hB x2 (by simp)
    have b3 : x3 < 256 := hB x3 (by simp)
    simp only [List.length_cons] at hj hp2 hp1
    rw [encodeBase64, sextet1, sextet2 x1 x2 b2, sextet3 x2 x3 b3, and_3f]
    rw [decodeLoop_group n p outLen _ _ _ _ _ i j out _ _ _ _ hi
      (charValue_encode6Bit _ _ _ _ (by omega)) (charValue_encode6Bit _ _ _ _ (by omega))
      (charValue_encode6Bit _ _ _ _ (by omega)) (charValue_encode6Bit _ _ _ _ (by omega))]
    obtain ⟨e1, e2, e3⟩ := pack3 x1 x2 x3 b1 b2 b3
    rw [flushGroup_eq, if_pos (by omega), e1, e2, e3]
    obtain ⟨out1, h1, h2, h3⟩ := ih (i + 4) (j + 3)
      (((out.set j x1).set (j + 1) x2).set (j + 2) x3)
      (fun b hb => hB b (by simp [hb])) (by omega) (by omega) (by simp; omega)
      (by omega) (by omega)
    refine ⟨out1, h1, by simpa using h2, ?_⟩
    rw [h3, take_set_succ _ _ _ (by simp; omega), take_set_succ _ _ _ (by simp; omega),
      take_set_succ _ _ _ (by omega)]
    simp
  | case2 x1 x2 =>
    intro i j out hB hi hj hlen hp2 hp1
    have b1 : x1 < 256 := hB x1 (by simp)
    have b2 : x2 < 256 := hB x2 (by simp)
    have hp := hp2 rfl
    simp only [List.length_cons, List.length_nil] at hj hp
    rw [encodeBase64, sextet1, sextet2 x1 x2 b2, sextet3_last]
    rw [decodeLoop_group n p outLen _ _ _ _ _ i j out _ _ _ _ hi
      (charValue_encode6Bit _ _ _ _ (by omega)) (charValue_encode6Bit _ _ _ _ (by omega))
      (charValue_encode6Bit _ _ _ _ (by omega)) (charValue_pad _ _ _ (by omega))]
    have e := pack3 x1 x2 0 b1 b2 (by omega)
    simp only [Nat.zero_div, Nat.zero_mod, Nat.add_zero] at e
    obtain ⟨e1, e2, -⟩ := e
    rw [flushGroup_eq, if_neg (by omega), if_pos (by omega)]
    simp only [Nat.add_zero]
    rw [e1, e2, decodeLoop]
    refine ⟨_, by rw [← hj], by simp, ?_⟩
    rw [← hj, take_set_succ _ _ _ (by simp; omega), take_set_succ _ _ _ (by omega)]
    simp
  | case3 x1 =>
    intro i j out hB hi hj hlen hp2 hp1
    have b1 : x1 < 256 := hB x1 (by simp)
    have hp := hp1 rfl
    simp only [List.length_cons, List.length_nil] at hj hp
    rw [encodeBase64, sextet1, sextet2_last]
    rw [decodeLoop_group n p outLen _ _ _ _ _ i j out _ _ _ _ hi
      (charValue_encode6Bit _ _ _ _ (by omega)) (charValue_encode6Bit _ _ _ _ (by omega))
      (charValue_pad _ _ _ (by omega)) (charValue_pad _ _ _ (by omega))]
    have e := pack3 x1 0 0 b1 (by omega) (by omega)
    simp only [Nat.zero_div, Nat.zero_mod, Nat.add_zero, Nat.zero_mul] at e
    obtain ⟨e1, -, -⟩ := e
    rw [flushGroup_eq, if_neg (by omega), if_neg (by omega), if_pos (by omega)]
    simp only [Nat.add_zero]
    rw [e1, decodeLoop]
    refine ⟨_, by rw [← hj], by simp, ?_⟩
    rw [← hj, take_set_succ _ _ _ (by omega)]
  | case4 =>
    intro i j out hB hi hj hlen hp2 hp1
    simp only [List.length_nil, Nat.add_zero] at hj
    rw [encodeBase64, decodeLoop]
    exact ⟨out, by rw [hj], rfl, by rw [hj]; simp⟩

/-! ## Strings without NUL, the shape of the encoder's text -/

theorem strlen_le (s : List Char) : strlen s ≤ s.length := by
  induction s with
  | nil => simp [strlen]
  | cons c cs ih =>
    unfold strlen
    split_ifs
    · simp
    · simp only [List.length_cons]; omega

theorem strlen_eq_length (s : List Char) (h : NUL ∉ s) : strlen s = s.length := by
  induction s with
  | nil => simp [strlen]
  | cons c cs ih =>
    simp only [List.mem_cons, not_or] at h
    unfold strlen
    rw [if_neg (fun e => h.1 e.symm), ih h.2, List.length_cons]

theorem cstr_eq_self (s : List Char) (h : NUL ∉ s) : cstr s = s := by
  unfold cstr
  rw [strlen_eq_length s h, List.take_length]

theorem paddingCount_append (pre E : List Char) (h : 3 ≤ E.length) :
    paddingCount (pre ++ E) (pre.length + E.length) = paddingCount E E.length := by
  have e1 : (pre ++ E)[pre.length + E.length - 1]? = E[E.length - 1]? := by
    rw [List.getElem?_append_right (by omega)]
    congr 1; omega
  have e2 : (pre ++ E)[pre.length + E.length - 2]? = E[E.length - 2]? := by
    rw [List.getElem?_append_right (by omega)]
    congr 1; omega
  have e3 : (pre ++ E)[pre.length + E.length - 3]? = E[E.length - 3]? := by
    rw [List.getElem?_append_right (by omega)]
    congr 1; omega
  have c1 : (1 ≤ pre.length + E.length) = (1 ≤ E.length) := by
    apply propext; constructor <;> intro <;> omega
  have c2 : (2 ≤ pre.length + E.length) = (2 ≤ E.length) := by
    apply propext; constructor <;> intro <;> omega
  have c3 : (3 ≤ pre.length + E.length) = (3 ≤ E.length) := by
    apply propext; constructor <;> intro <;> omega
  unfold paddingCount
  simp only [e1, e2, e3, c1, c2, c3]

theorem encodeBase64_length (B : List Nat) :
    (encodeBase64 B).length = 4 * ((B.length + 2) / 3) := by
  induction B using encodeBase64.induct with
  | case1 x1 x2 x3 rest ih =>
    rw [encodeBase64]
    simp only [List.length_cons, ih]
    omega
  | case2 x1 x2 => simp [encodeBase64]
  | case3 x1 => simp [encodeBase64]
  | case4 => simp [encodeBase64]

theorem encodeBase64_no_NUL (B : List Nat) : NUL ∉ encodeBase64 B := by
  induction B using encodeBase64.induct with
  | case1 x1 x2 x3 rest ih =>
    rw [encodeBase64]
    simp only [List.mem_cons, not_or]
    exact ⟨fun e => encode6Bit_ne_NUL _ e.symm, fun e => encode6Bit_ne_NUL _ e.symm,
      fun e => encode6Bit_ne_NUL _ e.symm, fun e => encode6Bit_ne_NUL _ e.symm, ih⟩
  | case2 x1 x2 =>
    rw [encodeBase64]
    simp only [List.mem_cons, not_or, List.mem_nil_iff, not_false_eq_true, and_true]
    exact ⟨fun e => encode6Bit_ne_NUL _ e.symm, fun e => encode6Bit_ne_NUL _ e.symm,
      fun e => encode6Bit_ne_NUL _ e.symm, by decide⟩
  | case3 x1 =>
    rw [encodeBase64]
    simp only [List.mem_cons, not_or, List.mem_nil_iff, not_false_eq_true, and_true]
    exact ⟨fun e => encode6Bit_ne_NUL _ e.symm, fun e => encode6Bit_ne_NUL _ e.symm,
      by decide, by decide⟩
  | case4 => simp [encodeBase64]

theorem paddingCount_four (a b c d : Char) :
    paddingCount [a, b, c, d] 4 =
      if d = '=' then (if c = '=' then (if b = '=' then 3 else 2) else 1) else 0 := by
  unfold paddingCount
  simp

theorem paddingCount_encodeBase64 (B : List Nat) :
    paddingCount (encodeBase64 B) (encodeBase64 B).length = (3 - B.length % 3) % 3 := by
  induction B using encodeBase64.induct with
  | case1 x1 x2 x3 rest ih =>
    rw [encodeBase64]
    by_cases hr : rest = []
    · subst hr
      rw [encodeBase64]
      simp only [List.length_cons, List.length_nil]
      rw [paddingCount_four, if_neg (encode6Bit_ne_pad _)]
    · have hl : 3 ≤ (encodeBase64 rest).length := by
        rw [encodeBase64_length]
        have : 0 < rest.length := List.length_pos.mpr hr
        omega
      have := paddingCount_append
        [encode6Bit (x1 >>> 2), encode6Bit (((x1 <<< 4) ||| (x2 >>> 4)) &&& 0x3f),
          encode6Bit (((x2 <<< 2) ||| (x3 >>> 6)) &&& 0x3f), encode6Bit (x3 &&& 0x3f)]
        (encodeBase64 rest) hl
      simp only [List.cons_append, List.nil_append, List.length_cons, List.length_nil] at this
      simp only [List.length_cons]
      rw [show (encodeBase64 rest).length + 1 + 1 + 1 + 1 = 0 + 1 + 1 + 1 + 1 +
        (encodeBase64 rest).length by omega, this, ih]
      omega
  | case2 x1 x2 =>
    rw [encodeBase64]
    simp only [List.length_cons, List.length_nil]
    rw [paddingCount_four, if_pos rfl, if_neg (encode6Bit_ne_pad _)]
  | case3 x1 =>
    rw [encodeBase64]
    simp only [List.length_cons, List.length_nil]
    rw [paddingCount_four, if_pos rfl, if_pos rfl, if_neg (encode6Bit_ne_pad _)]
  | case4 => rfl

/-! ## The two entry points in terms of the loop -/

theorem decodeBase64Buf_eq_loop (buf : List Nat) (cap : Nat) (s : List Char)
    (h4 : strlen s % 4 = 0)
    (hcap : strlen s / 4 * 3 - paddingCount s (strlen s) ≤ cap) :
    decodeBase64Buf (some buf) cap s =
      if (decodeLoop (strlen s) (paddingCount s (strlen s))
          (strlen s / 4 * 3 - paddingCount s (strlen s)) (s.take (strlen s)) 0 0 0 buf).1
      then (true,
        some (decodeLoop (strlen s) (paddingCount s (strlen s))
          (strlen s / 4 * 3 - paddingCount s (strlen s)) (s.take (strlen s)) 0 0 0 buf).2.2,
        (decodeLoop (strlen s) (paddingCount s (strlen s))
          (strlen s / 4 * 3 - paddingCount s (strlen s)) (s.take (strlen s)) 0 0 0 buf).2.1)
      else (false,
        some (decodeLoop (strlen s) (paddingCount s (strlen s))
          (strlen s / 4 * 3 - paddingCount s (strlen s)) (s.take (strlen s)) 0 0 0 buf).2.2,
        cap) := by
  unfold decodeBase64Buf
  simp only [h4, ne_eq, not_true_eq_false, if_false]
  rw [if_neg (by omega)]

theorem newABuffer_length (k : Nat) : (newABuffer k).length = k := by
  simp [newABuffer]

theorem decodeBase64_encodeBase64 (B : List Nat) (hB : ∀ b ∈ B, b < 256) :
    decodeBase64 (encodeBase64 B) = some B := by
  have hn : strlen (encodeBase64 B) = (encodeBase64 B).length :=
    strlen_eq_length _ (encodeBase64_no_NUL B)
  have hl := encodeBase64_length B
  have hp := paddingCount_encodeBase64 B
  have hout : (encodeBase64 B).length / 4 * 3
      - paddingCount (encodeBase64 B) (encodeBase64 B).length = B.length := by
    rw [hp, hl]; omega
  obtain ⟨out1, h1, -, h3⟩ := decodeLoop_encode (encodeBase64 B).length
    (paddingCount (encodeBase64 B) (encodeBase64 B).length) B.length B 0 0
    (newABuffer ((encodeBase64 B).length / 4 * 3)) hB rfl (by simp)
    (by rw [newABuffer_length]; omega) (by intro h; rw [hp, hl]; omega)
    (by intro h; rw [hp, hl]; omega)
  unfold decodeBase64
  simp only []
  rw [if_neg (by rw [hl]; omega), decodeBase64Buf_eq_loop _ _ _ (by rw [hn, hl]; omega)
    (by rw [hn]; omega), hn, hout, List.take_length, h1]
  simp only [if_true]
  rw [h3]
  simp

/-! ## The decoder does not tell the two alphabets apart -/

theorem charValue_swap (a b : Char) (i n p : Nat) (h : swapRel a b) :
    charValue a i n p = charValue b i n p := by
  rcases h with h | ⟨h1, h2⟩ | ⟨h1, h2⟩ | ⟨h1, h2⟩ | ⟨h1, h2⟩
  · rw [h]
  all_goals subst h1; subst h2; rfl

theorem swapRel_NUL (a b : Char) (h : swapRel a b) : a = NUL ↔ b = NUL := by
  rcases h with h | ⟨h1, h2⟩ | ⟨h1, h2⟩ | ⟨h1, h2⟩ | ⟨h1, h2⟩
  · rw [h]
  all_goals subst h1; subst h2; decide

theorem swapRel_pad (a b : Char) (h : swapRel a b) : a = '=' ↔ b = '=' := by
  rcases h with h | ⟨h1, h2⟩ | ⟨h1, h2⟩ | ⟨h1, h2⟩ | ⟨h1, h2⟩
  · rw [h]
  all_goals subst h1; subst h2; decide

theorem AlphaSwap_length (s t : List Char) (h : AlphaSwap s t) : s.length = t.length :=
  List.Forall₂.length_eq h

theorem AlphaSwap_strlen (s t : List Char) (h : AlphaSwap s t) : strlen s = strlen t := by
  induction h with
  | nil => rfl
  | @cons a b l1 l2 hab _ ih =>
    unfold strlen
    by_cases e : a = NUL
    · rw [if_pos e, if_pos ((swapRel_NUL _ _ hab).mp e)]
    · rw [if_neg e, if_neg (fun e2 => e ((swapRel_NUL _ _ hab).mpr e2)), ih]

theorem AlphaSwap_getElem_pad (s t : List Char) (h : AlphaSwap s t) :
    ∀ k : Nat, s[k]? = some '=' ↔ t[k]? = some '=' := by
  induction h with
  | nil => intro k; simp
  | cons hab _ ih =>
    intro k
    cases k with
    | zero => simpa using swapRel_pad _ _ hab
    | succ k => simpa using ih k

theorem AlphaSwap_paddingCount (s t : List Char) (n : Nat) (h : AlphaSwap s t) :
    paddingCount s n = paddingCount t n := by
  unfold paddingCount
  simp only [AlphaSwap_getElem_pad s t h]

theorem AlphaSwap_take (s t : List Char) (k : Nat) (h : AlphaSwap s t) :
    AlphaSwap (s.take k) (t.take k) :=
  List.forall₂_take k h

theorem decodeLoop_swap (n p outLen : Nat) (s t : List Char) (h : AlphaSwap s t) :
    ∀ (i j accum : Nat) (out : List Nat),
      decodeLoop n p outLen s i j accum out = decodeLoop n p outLen t i j accum out := by
  induction h with
  | nil => intro i j accum out; rfl
  | cons hab _ ih =>
    intro i j accum out
    rw [decodeLoop, decodeLoop, charValue_swap _ _ i n p hab]
    cases charValue _ i n p with
    | none => rfl
    | some v =>
      simp only []
      split_ifs
      · exact ih _ _ _ _
      · exact ih _ _ _ _

theorem decodeBase64Buf_swap (out : Option (List Nat)) (cap : Nat) (s t : List Char)
    (h : AlphaSwap s t) : decodeBase64Buf out cap s = decodeBase64Buf out cap t := by
  unfold decodeBase64Buf
  simp only [AlphaSwap_strlen s t h, AlphaSwap_paddingCount s t _ h,
    decodeLoop_swap _ _ _ _ _ (AlphaSwap_take s t (strlen t) h)]

theorem decodeBase64_swap (s t : List Char) (h : AlphaSwap s t) :
    decodeBase64 s = decodeBase64 t := by
  unfold decodeBase64
  simp only [AlphaSwap_length s t h, decodeBase64Buf_swap _ _ s t h]

/-! ## The URL-safe encoder -/

theorem urlChar_swap (c : Char) : swapRel (urlChar c) c := by
  unfold urlChar swapRel
  split_ifs with h1 h2
  · subst h1; simp
  · subst h2; simp
  · simp

theorem map_urlChar_swap (s : List Char) : AlphaSwap (s.map urlChar) s := by
  induction s with
  | nil => exact List.Forall₂.nil
  | cons c cs ih => exact List.Forall₂.cons (urlChar_swap c) ih

theorem map_urlChar_of_not_mem (s : List Char) (h1 : '+' ∉ s) (h2 : '/' ∉ s) :
    s.map urlChar = s := by
  induction s with
  | nil => rfl
  | cons c cs ih =>
    simp only [List.mem_cons, not_or] at h1 h2
    rw [List.map_cons, ih h1.2 h2.2]
    unfold urlChar
    rw [if_neg (fun e => h1.1 e.symm), if_neg (fun e => h2.1 e.symm)]

theorem encodeBase64Url_eq_map (B : List Nat) :
    encodeBase64Url B = (encodeBase64 B).map urlChar := by
  unfold encodeBase64Url
  simp only [List.contains, List.elem_eq_mem, decide_eq_true_eq]
  split_ifs with h
  · rfl
  · rw [not_or] at h
    exact (map_urlChar_of_not_mem _ h.1 h.2).symm

theorem decodeBase64_encodeBase64Url (B : List Nat) (hB : ∀ b ∈ B, b < 256) :
    decodeBase64 (encodeBase64Url B) = some B := by
  rw [encodeBase64Url_eq_map, decodeBase64_swap _ _ (map_urlChar_swap _)]
  exact decodeBase64_encodeBase64 B hB

/-! ## General facts about the loop -/

theorem decodeLoop_ok_iff (n p outLen : Nat) (cs : List Char) :
    ∀ (i j accum : Nat) (out : List Nat),
      (decodeLoop n p outLen cs i j accum out).1 = true ↔
        ∀ (k : Nat) (c : Char), cs[k]? = some c → charValue c (i + k) n p ≠ none := by
  induction cs with
  | nil => intro i j accum out; simp [decodeLoop]
  | cons c cs ih =>
    intro i j accum out
    rw [decodeLoop]
    cases hv : charValue c i n p with
    | none =>
      simp only [Bool.false_eq_true, false_iff, not_forall]
      exact ⟨0, c, by simp, by simpa using hv⟩
    | some v =>
      have key : (∀ (k : Nat) (d : Char), (c :: cs)[k]? = some d →
            charValue d (i + k) n p ≠ none) ↔
          ∀ (k : Nat) (d : Char), cs[k]? = some d → charValue d (i + 1 + k) n p ≠ none := by
        constructor
        · intro h k d hk
          have := h (k + 1) d (by simpa using hk)
          rwa [show i + (k + 1) = i + 1 + k by omega] at this
        · intro h k d hk
          cases k with
          | zero =>
            simp only [List.getElem?_cons_zero, Option.some.injEq] at hk
            subst hk
            simp [hv]
          | succ k =>
            have := h k d (by simpa using hk)
            rwa [show i + 1 + k = i + (k + 1) by omega] at this
      rw [key]
      simp only []
      split_ifs
      · exact ih _ _ _ _
      · exact ih _ _ _ _

theorem decodeLoop_length (n p outLen : Nat) (cs : List Char) :
    ∀ (i j accum : Nat) (out : List Nat),
      (decodeLoop n p outLen cs i j accum out).2.2.length = out.length := by
  induction cs with
  | nil => intro i j accum out; simp [decodeLoop]
  | cons c cs ih =>
    intro i j accum out
    rw [decodeLoop]
    cases charValue c i n p with
    | none => rfl
    | some v =>
      simp only []
      split_ifs
      · rw [ih, flushGroup_length]
      · rw [ih]

theorem decodeLoop_j (n p outLen : Nat) (cs : List Char) :
    ∀ (i j accum : Nat) (out : List Nat), j ≤ outLen →
      (decodeLoop n p outLen cs i j accum out).1 = true →
      (decodeLoop n p outLen cs i j accum out).2.1
        = min outLen (j + 3 * ((i + cs.length) / 4 - i / 4)) := by
  induction cs with
  | nil =>
    intro i j accum out hj _
    simp only [decodeLoop, List.length_nil, Nat.add_zero]
    omega
  | cons c cs ih =>
    intro i j accum out hj
    rw [decodeLoop]
    cases charValue c i n p with
    | none => intro h; simp at h
    | some v =>
      simp only [List.length_cons]
      split_ifs with h4
      · intro hok
        rw [ih _ _ _ _ (by rw [flushGroup_fst _ _ _ _ hj]; omega) hok,
          flushGroup_fst _ _ _ _ hj]
        omega
      · intro hok
        rw [ih _ _ _ _ hj hok]
        omega

theorem decodeLoop_buffer (n p outLen : Nat) (cs : List Char) :
    ∀ (i j accum : Nat) (out1 out2 : List Nat), j ≤ outLen →
      outLen ≤ out1.length → outLen ≤ out2.length → out1.take j = out2.take j →
      (decodeLoop n p outLen cs i j accum out1).1
        = (decodeLoop n p outLen cs i j accum out2).1 ∧
      (decodeLoop n p outLen cs i j accum out1).2.1
        = (decodeLoop n p outLen cs i j accum out2).2.1 ∧
      (decodeLoop n p outLen cs i j accum out1).2.2.take
          (decodeLoop n p outLen cs i j accum out1).2.1
        = (decodeLoop n p outLen cs i j accum out2).2.2.take
          (decodeLoop n p outLen cs i j accum out2).2.1 := by
  induction cs with
  | nil => intro i j accum out1 out2 hj h1 h2 h; simpa [decodeLoop] using h
  | cons c cs ih =>
    intro i j accum out1 out2 hj h1 h2 h
    rw [decodeLoop, decodeLoop]
    cases charValue c i n p with
    | none => exact ⟨rfl, rfl, h⟩
    | some v =>
      simp only []
      split_ifs with h4
      · have e1 := flushGroup_fst outLen ((accum <<< 6 % 2 ^ 32) ||| v) j out1 hj
        have e2 := flushGroup_fst outLen ((accum <<< 6 % 2 ^ 32) ||| v) j out2 hj
        have t1 := flushGroup_take outLen ((accum <<< 6 % 2 ^ 32) ||| v) j out1 hj h1
        have t2 := flushGroup_take outLen ((accum <<< 6 % 2 ^ 32) ||| v) j out2 hj h2
        rw [e1] at t1
        rw [e2] at t2
        rw [e1, e2]
        exact ih _ _ _ _ _ (by omega) (by rw [flushGroup_length]; exact h1)
          (by rw [flushGroup_length]; exact h2) (by rw [t1, t2, h])
      · exact ih _ _ _ _ _ hj h1 h2 h

/-! ## Acceptance by the buffer variant -/

theorem cstr_length (s : List Char) : (cstr s).length = strlen s := by
  unfold cstr
  rw [List.length_take]
  exact Nat.min_eq_left (strlen_le s)

theorem paddingCount_cstr (s : List Char) :
    paddingCount (cstr s) (strlen s) = paddingCount s (strlen s) := by
  unfold paddingCount cstr
  by_cases h1 : 1 ≤ strlen s
  · rw [List.getElem?_take_of_lt (by omega)]
    by_cases h2 : 2 ≤ strlen s
    · rw [List.getElem?_take_of_lt (by omega)]
      by_cases h3 : 3 ≤ strlen s
      · rw [List.getElem?_take_of_lt (by omega)]
      · simp [h3]
    · simp [h2]
  · simp [h1]

theorem paddingCount_le_three (s : List Char) (n : Nat) : paddingCount s n ≤ 3 := by
  unfold paddingCount
  split_ifs <;> omega

theorem paddingCount_le (s : List Char) (n : Nat) : paddingCount s n ≤ n := by
  unfold paddingCount
  split_ifs <;> omega

theorem paddingCount_le_outLen (s : List Char) (n : Nat) (h4 : n % 4 = 0) :
    paddingCount s n ≤ n / 4 * 3 := by
  have h1 := paddingCount_le_three s n
  have h2 := paddingCount_le s n
  omega

theorem decodeBase64Buf_fst (out : Option (List Nat)) (cap : Nat) (s : List Char) :
    (decodeBase64Buf out cap s).1 = true ↔
      (∃ buf, out = some buf) ∧ strlen s % 4 = 0 ∧
      strlen s / 4 * 3 - paddingCount s (strlen s) ≤ cap ∧
      ∀ (k : Nat) (c : Char), (cstr s)[k]? = some c →
        charValue c k (strlen s) (paddingCount s (strlen s)) ≠ none := by
  unfold decodeBase64Buf
  simp only []
  by_cases h4 : strlen s % 4 = 0
  · cases out with
    | none => simp
    | some buf =>
      by_cases hcap : cap < strlen s / 4 * 3 - paddingCount s (strlen s)
      · simp only [h4, ne_eq, not_true_eq_false, if_false, hcap, if_true]
        simp only [Bool.false_eq_true, false_iff, not_and]
        intro _ _ hc
        omega
      · have key := decodeLoop_ok_iff (strlen s) (paddingCount s (strlen s))
          (strlen s / 4 * 3 - paddingCount s (strlen s)) (s.take (strlen s)) 0 0 0 buf
        simp only [Nat.zero_add] at key
        simp only [h4, ne_eq, not_true_eq_false, if_false, hcap]
        split_ifs with hr
        · simp only [true_iff]
          exact ⟨⟨buf, rfl⟩, trivial, by omega, key.mp hr⟩
        · simp only [Bool.false_eq_true, false_iff, not_and]
          intro _ _ _ hall
          exact hr (key.mpr hall)
  · simp [h4]

theorem decodeBase64Buf_snd (buf : List Nat) (cap : Nat) (s : List Char)
    (h : (decodeBase64Buf (some buf) cap s).1 = true) :
    (decodeBase64Buf (some buf) cap s).2.2
      = strlen s / 4 * 3 - paddingCount s (strlen s) := by
  have hh := (decodeBase64Buf_fst _ _ _).mp h
  obtain ⟨-, h4, hcap, -⟩ := hh
  rw [decodeBase64Buf_eq_loop buf cap s h4 hcap] at h ⊢
  split_ifs at h ⊢ with hr
  · simp only []
    rw [decodeLoop_j _ _ _ _ _ _ _ _ (Nat.zero_le _) hr, List.length_take,
      Nat.min_eq_left (strlen_le s)]
    have := paddingCount_le_outLen s (strlen s) h4
    omega

theorem decodeBase64Buf_buffer_length (buf : List Nat) (cap : Nat) (s : List Char) :
    ∀ data, (decodeBase64Buf (some buf) cap s).2.1 = some data → data.length = buf.length := by
  intro data
  unfold decodeBase64Buf
  simp only []
  split_ifs
  · intro h; simp only [Option.some.injEq] at h; rw [← h]
  · intro h; simp only [Option.some.injEq] at h; rw [← h]
  · intro h; simp only [Option.some.injEq] at h; rw [← h, decodeLoop_length]
  · intro h; simp only [Option.some.injEq] at h; rw [← h, decodeLoop_length]

/-! ## The owning variant in terms of the buffer variant -/

theorem decodeBase64_cases (s : List Char) :
    (decodeBase64 s = none ∧
      (s.length % 4 ≠ 0 ∨
        (decodeBase64Buf (some (newABuffer (s.length / 4 * 3))) (s.length / 4 * 3) s).1
          = false)) ∨
    (s.length % 4 = 0 ∧
      (decodeBase64Buf (some (newABuffer (s.length / 4 * 3))) (s.length / 4 * 3) s).1 = true ∧
      ∃ data,
        (decodeBase64Buf (some (newABuffer (s.length / 4 * 3))) (s.length / 4 * 3) s).2.1
          = some data ∧
        decodeBase64 s = some (data.take
          (decodeBase64Buf (some (newABuffer (s.length / 4 * 3))) (s.length / 4 * 3) s).2.2)) := by
  unfold decodeBase64
  simp only []
  by_cases h4 : s.length % 4 = 0
  · rw [if_neg (by omega)]
    have hb := decodeBase64Buf_fst (some (newABuffer (s.length / 4 * 3))) (s.length / 4 * 3) s
    rcases hd : decodeBase64Buf (some (newABuffer (s.length / 4 * 3))) (s.length / 4 * 3) s
      with ⟨ok, d, l⟩
    cases ok with
    | false => left; exact ⟨rfl, Or.inr rfl⟩
    | true =>
      cases d with
      | none =>
        exfalso
        have : (decodeBase64Buf (some (newABuffer (s.length / 4 * 3)))
          (s.length / 4 * 3) s).2.1 = none := by rw [hd]
        unfold decodeBase64Buf at this
        simp only [] at this
        split_ifs at this
      | some data => right; exact ⟨h4, rfl, data, rfl, rfl⟩
  · left
    rw [if_pos h4]
    exact ⟨rfl, Or.inl h4⟩

/-! ## Characters and padding of an accepted text -/

theorem charValue_of_not_inAlphabet (c : Char) (i n p : Nat) (h : ¬ inAlphabet c) :
    charValue c i n p = none := by
  unfold inAlphabet at h
  simp only [not_or] at h
  obtain ⟨h1, h2, h3, h4, h5, h6, h7, h8⟩ := h
  unfold charValue
  rw [if_neg h1, if_neg h2, if_neg h3, if_neg (by simp [h4, h6]), if_neg (by simp [h5, h7]),
    if_pos h8]

theorem charValue_pad_none (i n p : Nat) (h : i < n - p) : charValue '=' i n p = none := by
  unfold charValue
  simp only [Char.reduceToNat]
  rw [if_neg (by omega), if_neg (by omega), if_neg (by omega), if_neg (by decide),
    if_neg (by decide), if_neg (by decide), if_pos h]

theorem exists_append_four (cs : List Char) (h : 4 ≤ cs.length) :
    ∃ pre d c b a, cs = pre ++ [d, c, b, a] := by
  have hr : 4 ≤ cs.reverse.length := by simpa using h
  match hrev : cs.reverse, hr with
  | a :: b :: c :: d :: r, _ =>
    refine ⟨r.reverse, d, c, b, a, ?_⟩
    have := congrArg List.reverse hrev
    simpa using this

theorem trailingPad_eq_paddingCount (cs : List Char) (h4 : cs.length % 4 = 0)
    (hok : ∀ (k : Nat) (c : Char), cs[k]? = some c →
      charValue c k cs.length (paddingCount cs cs.length) ≠ none) :
    trailingPad cs = paddingCount cs cs.length := by
  by_cases h0 : cs.length = 0
  · have : cs = [] := List.length_eq_zero.mp h0
    subst this
    rfl
  · obtain ⟨pre, d, c, b, a, rfl⟩ := exists_append_four cs (by omega)
    have hp := paddingCount_append pre [d, c, b, a] (by simp)
    simp only [List.length_append, List.length_cons, List.length_nil] at hp hok ⊢
    rw [hp, paddingCount_four] at hok ⊢
    have hd := hok pre.length d (by rw [List.getElem?_append_right (Nat.le_refl _)]; simp)
    unfold trailingPad
    simp only [List.reverse_append, List.reverse_cons, List.reverse_nil, List.nil_append,
      List.cons_append, List.takeWhile_cons, beq_iff_eq]
    by_cases ha : a = '='
    · by_cases hb : b = '='
      · by_cases hc : c = '='
        · have hdne : d ≠ '=' := by
            intro e
            subst e
            simp only [ha, hb, hc, if_true] at hd
            exact hd (charValue_pad_none _ _ _ (by omega))
          simp [ha, hb, hc, hdne]
        · simp [ha, hb, hc]
      · simp [ha, hb]
    · simp [ha]

/-! ## Length of the result -/

theorem decodeBase64Buf_length_law (out : Option (List Nat)) (cap : Nat) (s : List Char)
    (h : (decodeBase64Buf out cap s).1 = true) :
    (decodeBase64Buf out cap s).2.2 = strlen s / 4 * 3 - trailingPad (cstr s) := by
  obtain ⟨⟨buf, rfl⟩, h4, -, hok⟩ := (decodeBase64Buf_fst _ _ _).mp h
  rw [decodeBase64Buf_snd buf cap s h]
  have hl := cstr_length s
  have hp := paddingCount_cstr s
  have := trailingPad_eq_paddingCount (cstr s) (by rw [hl]; exact h4)
    (by rw [hl, hp]; exact hok)
  rw [this, hl, hp]

theorem decodeBase64_length (s : List Char) (bytes : List Nat)
    (h : decodeBase64 s = some bytes) :
    bytes.length = strlen s / 4 * 3 - paddingCount s (strlen s) := by
  rcases decodeBase64_cases s with ⟨hn, -⟩ | ⟨-, hok, data, hdata, hsome⟩
  · rw [hn] at h; simp at h
  · rw [hsome, Option.some.injEq] at h
    have hlen := decodeBase64Buf_buffer_length _ _ _ data hdata
    rw [newABuffer_length] at hlen
    have hsnd := decodeBase64Buf_snd _ _ _ hok
    have hle := strlen_le s
    rw [← h, List.length_take, hsnd, hlen]
    omega

theorem decodeBase64_length_law (s : List Char) (bytes : List Nat)
    (h : decodeBase64 s = some bytes) :
    bytes.length = strlen s / 4 * 3 - trailingPad (cstr s) := by
  rcases decodeBase64_cases s with ⟨hn, -⟩ | ⟨-, hok, -⟩
  · rw [hn] at h; simp at h
  · rw [decodeBase64_length s bytes h, ← decodeBase64Buf_length_law _ _ _ hok,
      decodeBase64Buf_snd _ _ _ hok]

/-! ## Rejection -/

theorem decodeBase64_none_of_buf (s : List Char)
    (h : ∀ out cap, (decodeBase64Buf out cap s).1 = false) : decodeBase64 s = none := by
  rcases decodeBase64_cases s with ⟨hn, -⟩ | ⟨-, hok, -⟩
  · exact hn
  · rw [h] at hok; simp at hok

theorem decodeBase64Buf_reject (s : List Char) (k : Nat) (c : Char)
    (hk : (cstr s)[k]? = some c)
    (hv : charValue c k (strlen s) (paddingCount s (strlen s)) = none)
    (out : Option (List Nat)) (cap : Nat) : (decodeBase64Buf out cap s).1 = false := by
  cases hb : (decodeBase64Buf out cap s).1 with
  | false => rfl
  | true =>
    obtain ⟨-, -, -, hok⟩ := (decodeBase64Buf_fst _ _ _).mp hb
    exact absurd hv (hok k c hk)

/-! ## The two variants on the same text -/

theorem decodeBase64Buf_agree (buf1 buf2 : List Nat) (cap1 cap2 : Nat) (s : List Char)
    (h1 : (decodeBase64Buf (some buf1) cap1 s).1 = true)
    (hl1 : strlen s / 4 * 3 ≤ buf1.length) (hl2 : strlen s / 4 * 3 ≤ buf2.length)
    (hc2 : strlen s / 4 * 3 ≤ cap2) :
    (decodeBase64Buf (some buf2) cap2 s).1 = true ∧
    (decodeBase64Buf (some buf2) cap2 s).2.2 = (decodeBase64Buf (some buf1) cap1 s).2.2 ∧
    ∃ d1 d2, (decodeBase64Buf (some buf1) cap1 s).2.1 = some d1 ∧
      (decodeBase64Buf (some buf2) cap2 s).2.1 = some d2 ∧
      d2.take (decodeBase64Buf (some buf1) cap1 s).2.2
        = d1.take (decodeBase64Buf (some buf1) cap1 s).2.2 := by
  obtain ⟨-, h4, hcap1, hok⟩ := (decodeBase64Buf_fst _ _ _).mp h1
  have h2 : (decodeBase64Buf (some buf2) cap2 s).1 = true :=
    (decodeBase64Buf_fst _ _ _).mpr ⟨⟨buf2, rfl⟩, h4, by omega, hok⟩
  have hb := decodeLoop_buffer (strlen s) (paddingCount s (strlen s))
    (strlen s / 4 * 3 - paddingCount s (strlen s)) (s.take (strlen s)) 0 0 0 buf1 buf2
    (Nat.zero_le _) (by omega) (by omega) (by simp)
  obtain ⟨hb1, hb2, hb3⟩ := hb
  refine ⟨h2, ?_, ?_⟩
  · rw [decodeBase64Buf_snd _ _ _ h1, decodeBase64Buf_snd _ _ _ h2]
  · rw [decodeBase64Buf_eq_loop buf1 cap1 s h4 hcap1] at h1 ⊢
    rw [decodeBase64Buf_eq_loop buf2 cap2 s h4 (by omega)] at h2 ⊢
    split_ifs at h1 h2 ⊢ with hr1 hr2
    exact ⟨_, _, rfl, rfl, by simp only []; rw [hb3, hb2]⟩

/-! ## The bytes of the fresh buffer do not matter -/

theorem decodeBase64_fresh_irrelevant (s : List Char) (buf : List Nat) (bytes : List Nat)
    (hlen : buf.length = s.length / 4 * 3) (h4 : s.length % 4 = 0) :
    decodeBase64 s = some bytes ↔
      (decodeBase64Buf (some buf) (s.length / 4 * 3) s).1 = true ∧
      ∃ data, (decodeBase64Buf (some buf) (s.length / 4 * 3) s).2.1 = some data ∧
        data.take (decodeBase64Buf (some buf) (s.length / 4 * 3) s).2.2 = bytes := by
  have hle := strlen_le s
  constructor
  · intro h
    rcases decodeBase64_cases s with ⟨hnone, -⟩ | ⟨-, hok, data0, hdata0, hsome⟩
    · rw [hnone] at h; simp at h
    · obtain ⟨h1, h2, d1, d2, hd1, hd2, htake⟩ :=
        decodeBase64Buf_agree (newABuffer (s.length / 4 * 3)) buf
          (s.length / 4 * 3) (s.length / 4 * 3) s hok (by rw [newABuffer_length]; omega)
          (by omega) (by omega)
      rw [hsome, Option.some.injEq] at h
      rw [hdata0, Option.some.injEq] at hd1
      subst hd1
      exact ⟨h1, d2, hd2, by rw [h2, htake, h]⟩
  · rintro ⟨hok, data, hdata, hbytes⟩
    obtain ⟨h1, h2, d1, d2, hd1, hd2, htake⟩ :=
      decodeBase64Buf_agree buf (newABuffer (s.length / 4 * 3))
        (s.length / 4 * 3) (s.length / 4 * 3) s hok (by omega)
        (by rw [newABuffer_length]; omega) (by omega)
    rcases decodeBase64_cases s with ⟨-, hbad | hbad⟩ | ⟨-, -, data0, hdata0, hsome⟩
    · omega
    · rw [hbad] at h1; simp at h1
    · rw [hdata, Option.some.injEq] at hd1
      rw [hdata0, Option.some.injEq] at hd2
      subst hd1; subst hd2
      rw [hsome, h2, htake, hbytes]

/-! ## The claims -/

/-- C1 (standard round trip): for every byte sequence `B`, decoding the text
`encodeBase64 B` with the owning decoder succeeds (the result is not null) and
gives back exactly the bytes `B`. -/
theorem roundtrip_standard (B : List Nat) (hB : ∀ b ∈ B, b < 256) :
    decodeBase64 (encodeBase64 B) = some B :=
  decodeBase64_encodeBase64 B hB

theorem roundtrip_standard_witness :
    decodeBase64 (encodeBase64 [0x4D, 0x61, 0x6E, 0xFF, 0x00]) =
      some [0x4D, 0x61, 0x6E, 0xFF, 0x00] :=
  roundtrip_standard [0x4D, 0x61, 0x6E, 0xFF, 0x00] (by decide)

/-- C2 (URL-safe round trip): for every byte sequence `B`, decoding the text
`encodeBase64Url B` with the owning decoder succeeds and gives back exactly the
bytes `B`. -/
theorem roundtrip_url (B : List Nat) (hB : ∀ b ∈ B, b < 256) :
    decodeBase64 (encodeBase64Url B) = some B :=
  decodeBase64_encodeBase64Url B hB

theorem roundtrip_url_witness :
    decodeBase64 (encodeBase64Url [0xFF, 0xFF, 0xFF, 0xFB]) = some [0xFF, 0xFF, 0xFF, 0xFB] :=
  roundtrip_url [0xFF, 0xFF, 0xFF, 0xFB] (by decide)

/-- C3 (length law), where the code departs from it: the owning decoder checks
and sizes with `s.size()` (lines 25-31) and decodes up to `strlen` (line 42).
The `AString` of the eight characters `AAAA`, NUL, `AAA` is accepted and three
bytes are returned, while `(8 / 4) * 3 - 0` is six; the seven characters
`AAAA`, NUL, `AA` are rejected, so the count of characters that are never read
decides the acceptance. -/
theorem length_law_embedded_NUL :
    decodeBase64 ['A', 'A', 'A', 'A', NUL, 'A', 'A', 'A'] = some [0, 0, 0] ∧
    ([0, 0, 0] : List Nat).length ≠
      ['A', 'A', 'A', 'A', NUL, 'A', 'A', 'A'].length / 4 * 3
        - trailingPad ['A', 'A', 'A', 'A', NUL, 'A', 'A', 'A'] ∧
    decodeBase64 ['A', 'A', 'A', 'A', NUL, 'A', 'A'] = none := by
  decide

/-- Where the length law holds: whenever a decoder accepts the text `s`, the
decoded length it reports (the value left in the in/out size by the buffer
variant, the size of the buffer returned by the owning variant) is
`(n / 4) * 3 - padding`, where `n` is the number of characters of `s` before its
first NUL (`strlen`) and `padding` the number of `=` at the end of those `n`
characters; for a text without NUL, `n` is its length and `padding` its number
of trailing `=`, which is the law as the specification states it. -/
theorem decoded_length_law (s : List Char) (out : Option (List Nat)) (cap : Nat)
    (bytes : List Nat) :
    ((decodeBase64Buf out cap s).1 = true →
      (decodeBase64Buf out cap s).2.2 = strlen s / 4 * 3 - trailingPad (cstr s)) ∧
    (decodeBase64 s = some bytes →
      bytes.length = strlen s / 4 * 3 - trailingPad (cstr s)) ∧
    (NUL ∉ s → decodeBase64 s = some bytes →
      bytes.length = s.length / 4 * 3 - trailingPad s) := by
  refine ⟨decodeBase64Buf_length_law out cap s, decodeBase64_length_law s bytes, ?_⟩
  intro hs h
  have := decodeBase64_length_law s bytes h
  rwa [strlen_eq_length s hs, cstr_eq_self s hs] at this

theorem decoded_length_law_witness :
    (decodeBase64Buf (some [7, 7, 7]) 3 ['T', 'W', 'E', '=']).2.2
      = strlen ['T', 'W', 'E', '='] / 4 * 3 - trailingPad (cstr ['T', 'W', 'E', '=']) ∧
    ([0x4D, 0x61] : List Nat).length
      = ['T', 'W', 'E', '='].length / 4 * 3 - trailingPad ['T', 'W', 'E', '='] :=
  ⟨(decoded_length_law ['T', 'W', 'E', '='] (some [7, 7, 7]) 3 [0x4D, 0x61]).1 (by decide),
   (decoded_length_law ['T', 'W', 'E', '='] (some [7, 7, 7]) 3 [0x4D, 0x61]).2.2
     (by decide) (by decide)⟩

/-- C4 (length rejection): a text whose length is not a multiple of 4 is
rejected by both decoders: the owning variant returns null for an `AString` of
such a size, and the buffer variant returns `false`, for every buffer and
capacity, when the length `strlen s` of its `const char *` argument is such
(then the owning variant returns null as well). -/
theorem length_rejection (s : List Char) :
    (s.length % 4 ≠ 0 → decodeBase64 s = none) ∧
    (strlen s % 4 ≠ 0 →
      decodeBase64 s = none ∧ ∀ out cap, (decodeBase64Buf out cap s).1 = false) := by
  constructor
  · intro h
    unfold decodeBase64
    simp only []
    rw [if_pos h]
  · intro h
    have hb : ∀ out cap, (decodeBase64Buf out cap s).1 = false := by
      intro out cap
      unfold decodeBase64Buf
      simp only []
      rw [if_pos h]
    exact ⟨decodeBase64_none_of_buf s hb, hb⟩

theorem length_rejection_witness :
    decodeBase64 ['T', 'W', 'F'] = none ∧
    (decodeBase64Buf (some [0, 0, 0]) 3 ['T', 'W', 'F', 'u', 'T']).1 = false :=
  ⟨(length_rejection ['T', 'W', 'F']).1 (by decide),
   ((length_rejection ['T', 'W', 'F', 'u', 'T']).2 (by decide)).2 (some [0, 0, 0]) 3⟩

/-- C5 (invalid-character rejection), where the code departs from it: the
owning decoder admits a text of `s.size()` characters (lines 25-31) and checks
only those before the first NUL (lines 42, 70, 83-84). The `AString` of the
eight characters `AAAA`, NUL, `!!!` holds four characters outside the alphabet
and is accepted, decoding to three bytes. -/
theorem invalid_character_embedded_NUL :
    NUL ∈ ['A', 'A', 'A', 'A', NUL, '!', '!', '!'] ∧ ¬ inAlphabet NUL ∧
    '!' ∈ ['A', 'A', 'A', 'A', NUL, '!', '!', '!'] ∧ ¬ inAlphabet '!' ∧
    decodeBase64 ['A', 'A', 'A', 'A', NUL, '!', '!', '!'] = some [0, 0, 0] := by
  decide

/-- Where the rejection of invalid characters holds: when one of the characters
of `s` before its first NUL (any character of `s` when it holds no NUL) is
outside `A-Z`, `a-z`, `0-9`, `+`, `/`, `-`, `_`, `=`, both decoders reject `s`,
at whatever index the character stands and whatever the buffer and capacity. -/
theorem invalid_character_rejection (s : List Char) (k : Nat) (c : Char)
    (hk : (cstr s)[k]? = some c) (hc : ¬ inAlphabet c) :
    decodeBase64 s = none ∧ ∀ out cap, (decodeBase64Buf out cap s).1 = false := by
  have hb : ∀ out cap, (decodeBase64Buf out cap s).1 = false :=
    decodeBase64Buf_reject s k c hk (charValue_of_not_inAlphabet c _ _ _ hc)
  exact ⟨decodeBase64_none_of_buf s hb, hb⟩

theorem invalid_character_rejection_witness :
    decodeBase64 ['T', 'W', '!', 'u'] = none ∧
    ∀ out cap, (decodeBase64Buf out cap ['T', 'W', '!', 'u']).1 = false :=
  invalid_character_rejection ['T', 'W', '!', 'u'] 2 '!' (by decide) (by decide)

/-- C6 (alphabet interchangeability): when `t` is `s` with any of its `-`
replaced by `+` and any of its `_` by `/`, or the reverse, both decoders give
the same result on `s` and on `t`: the owning variant rejects both or returns
the same bytes, the buffer variant returns the same flag, buffer and size. -/
theorem alphabet_interchangeable (s t : List Char) (h : AlphaSwap s t) :
    decodeBase64 s = decodeBase64 t ∧
    ∀ out cap, decodeBase64Buf out cap s = decodeBase64Buf out cap t :=
  ⟨decodeBase64_swap s t h, fun out cap => decodeBase64Buf_swap out cap s t h⟩

theorem alphabet_interchangeable_witness :
    decodeBase64 ['-', '_', '+', '/'] = decodeBase64 ['+', '/', '+', '_'] ∧
    ∀ out cap, decodeBase64Buf out cap ['-', '_', '+', '/']
      = decodeBase64Buf out cap ['+', '/', '+', '_'] :=
  alphabet_interchangeable ['-', '_', '+', '/'] ['+', '/', '+', '_']
    (List.Forall₂.cons (Or.inr (Or.inl ⟨rfl, rfl⟩))
      (List.Forall₂.cons (Or.inr (Or.inr (Or.inr (Or.inl ⟨rfl, rfl⟩))))
        (List.Forall₂.cons (Or.inl rfl)
          (List.Forall₂.cons (Or.inr (Or.inr (Or.inr (Or.inr ⟨rfl, rfl⟩))))
            List.Forall₂.nil))))

/-- C7 as stated fails: `A===` has a `=` at index 1, which is below `4 - 2`, and
is accepted (it decodes to no byte); the padding count used for it is 3. -/
theorem padding_placement_counterexample :
    ['A', '=', '=', '='][1]? = some '=' ∧ 1 < ['A', '=', '=', '='].length - 2 ∧
    decodeBase64 ['A', '=', '=', '='] = some [] ∧
    (decodeBase64Buf (some []) 0 ['A', '=', '=', '=']).1 = true ∧
    paddingCount ['A', '=', '=', '='] 4 = 3 := by
  decide

/-- C7 (padding placement, amended): with `n` the number of characters of `s`
before its first NUL (its length when it holds none), a `=` at an index
`k < n - 2` makes both decoders reject `s`, except at the index `n - 3` of a
text whose last three characters are all `=` (the padding count is then 3); so
a `=` below index `n - 3` is always rejected. The padding count the decoder
uses is never more than 3. -/
theorem padding_placement (s : List Char) (k : Nat) (hk : (cstr s)[k]? = some '=')
    (hlt : k < strlen s - 2)
    (hex : paddingCount s (strlen s) = 3 → k ≠ strlen s - 3) :
    (decodeBase64 s = none ∧ ∀ out cap, (decodeBase64Buf out cap s).1 = false) ∧
    paddingCount s (strlen s) ≤ 3 := by
  have hp := paddingCount_le_three s (strlen s)
  have hb : ∀ out cap, (decodeBase64Buf out cap s).1 = false :=
    decodeBase64Buf_reject s k '=' hk (charValue_pad_none _ _ _ (by omega))
  exact ⟨⟨decodeBase64_none_of_buf s hb, hb⟩, hp⟩

theorem padding_placement_witness :
    (decodeBase64 ['A', '=', 'A', 'A'] = none ∧
      ∀ out cap, (decodeBase64Buf out cap ['A', '=', 'A', 'A']).1 = false) ∧
    paddingCount ['A', '=', 'A', 'A'] (strlen ['A', '=', 'A', 'A']) ≤ 3 :=
  padding_placement ['A', '=', 'A', 'A'] 1 (by decide) (by decide) (by decide)

/-- C8 as stated fails: the owning decoder does not return null on `TW==`. -/
theorem decode_TW_counterexample : decodeBase64 ['T', 'W', '=', '='] ≠ none := by
  decide

/-- C8 (concrete vector, amended): the owning decoder accepts `TW==` and
returns the single byte `0x4D`. -/
theorem decode_TW : decodeBase64 ['T', 'W', '=', '='] = some [0x4D] := by
  decide

/-- C9 (insufficient buffer): for a text whose length `n` is a multiple of 4 and
a capacity below `(n / 4) * 3 - padding`, with `padding` the count the decoder
probes, the buffer variant returns `false` (and leaves buffer and size as they
were); so it does for `TWFu` with capacity 2. -/
theorem insufficient_buffer (s : List Char) (out : Option (List Nat)) (cap : Nat)
    (h4 : strlen s % 4 = 0)
    (hcap : cap < strlen s / 4 * 3 - paddingCount s (strlen s)) :
    decodeBase64Buf out cap s = (false, out, cap) := by
  unfold decodeBase64Buf
  simp only []
  rw [if_neg (by omega)]
  cases out with
  | none => rfl
  | some buf => simp only []; rw [if_pos hcap]

theorem insufficient_buffer_witness :
    decodeBase64Buf (some [0, 0]) 2 ['T', 'W', 'F', 'u'] = (false, some [0, 0], 2) :=
  insufficient_buffer ['T', 'W', 'F', 'u'] (some [0, 0]) 2 (by decide) (by decide)

/-- C10 (the two variants agree): for a text `s` without NUL and a non-null
buffer that holds `cap` bytes or more, `cap` at least `(len(s) / 4) * 3`, the
buffer variant succeeds exactly when the owning variant returns a buffer (so
the owning variant never fails for lack of room); then the size it leaves is
the size of the owned buffer and the first that many bytes of the caller's
buffer are the owned bytes. -/
theorem variants_agree (s : List Char) (buf : List Nat) (cap : Nat) (hs : NUL ∉ s)
    (hcap : s.length / 4 * 3 ≤ cap) (hbuf : cap ≤ buf.length) :
    ((decodeBase64Buf (some buf) cap s).1 = true ↔ decodeBase64 s ≠ none) ∧
    ∀ bytes, decodeBase64 s = some bytes →
      (decodeBase64Buf (some buf) cap s).2.2 = bytes.length ∧
      ∃ data, (decodeBase64Buf (some buf) cap s).2.1 = some data ∧
        data.take bytes.length = bytes := by
  have hn := strlen_eq_length s hs
  constructor
  · constructor
    · intro h1
      obtain ⟨-, h4, -, -⟩ := (decodeBase64Buf_fst _ _ _).mp h1
      have h2 := (decodeBase64Buf_agree buf (newABuffer (s.length / 4 * 3)) cap
        (s.length / 4 * 3) s h1 (by omega) (by rw [newABuffer_length]; omega) (by omega)).1
      rcases decodeBase64_cases s with ⟨-, hbad | hbad⟩ | ⟨-, -, data, -, hsome⟩
      · omega
      · rw [hbad] at h2; simp at h2
      · rw [hsome]; simp
    · intro hne
      rcases decodeBase64_cases s with ⟨hnone, -⟩ | ⟨-, hok, -⟩
      · exact absurd hnone hne
      · exact (decodeBase64Buf_agree (newABuffer (s.length / 4 * 3)) buf
          (s.length / 4 * 3) cap s hok (by rw [newABuffer_length]; omega) (by omega)
          (by omega)).1
  · intro bytes hbytes
    rcases decodeBase64_cases s with ⟨hnone, -⟩ | ⟨-, hok, data0, hdata0, hsome⟩
    · rw [hnone] at hbytes; simp at hbytes
    · obtain ⟨-, h2, d1, d2, hd1, hd2, htake⟩ :=
        decodeBase64Buf_agree (newABuffer (s.length / 4 * 3)) buf
          (s.length / 4 * 3) cap s hok (by rw [newABuffer_length]; omega) (by omega)
          (by omega)
      have hlen := decodeBase64_length s bytes hbytes
      have hsnd := decodeBase64Buf_snd _ _ _ hok
      rw [hsome, Option.some.injEq] at hbytes
      rw [hdata0, Option.some.injEq] at hd1
      subst hd1
      refine ⟨by rw [h2, hsnd, hlen], d2, hd2, ?_⟩
      rw [hlen, ← hsnd, htake, hbytes]

theorem variants_agree_witness :
    ((decodeBase64Buf (some [9, 9, 9, 9]) 4 ['T', 'W', 'E', '=']).1 = true ↔
      decodeBase64 ['T', 'W', 'E', '='] ≠ none) ∧
    ∀ bytes, decodeBase64 ['T', 'W', 'E', '='] = some bytes →
      (decodeBase64Buf (some [9, 9, 9, 9]) 4 ['T', 'W', 'E', '=']).2.2 = bytes.length ∧
      ∃ data, (decodeBase64Buf (some [9, 9, 9, 9]) 4 ['T', 'W', 'E', '=']).2.1 = some data ∧
        data.take bytes.length = bytes :=
  variants_agree ['T', 'W', 'E', '='] [9, 9, 9, 9] 4 (by decide) (by decide) (by decide)
/-! ## Shape of the encoder's text -/

theorem encodeBase64_append (A B : List Nat) (h : A.length % 3 = 0) :
    encodeBase64 (A ++ B) = encodeBase64 A ++ encodeBase64 B := by
  induction A using encodeBase64.induct with
  | case1 x1 x2 x3 rest ih =>
    simp only [List.length_cons] at h
    rw [List.cons_append, List.cons_append, List.cons_append, encodeBase64, encodeBase64,
      ih (by omega)]
    simp
  | case2 x1 x2 => simp at h
  | case3 x1 => simp at h
  | case4 => simp [encodeBase64]

theorem encodeBase64Url_append (A B : List Nat) (h : A.length % 3 = 0) :
    encodeBase64Url (A ++ B) = encodeBase64Url A ++ encodeBase64Url B := by
  rw [encodeBase64Url_eq_map, encodeBase64Url_eq_map, encodeBase64Url_eq_map,
    encodeBase64_append A B h, List.map_append]

theorem encodeBase64_shape (B : List Nat) :
    ∃ body, encodeBase64 B = body ++ List.replicate ((3 - B.length % 3) % 3) '=' ∧
      '=' ∉ body := by
  induction B using encodeBase64.induct with
  | case1 x1 x2 x3 rest ih =>
    obtain ⟨body, hb, hn⟩ := ih
    refine ⟨encode6Bit (x1 >>> 2) :: encode6Bit (((x1 <<< 4) ||| (x2 >>> 4)) &&& 0x3f) ::
      encode6Bit (((x2 <<< 2) ||| (x3 >>> 6)) &&& 0x3f) :: encode6Bit (x3 &&& 0x3f) :: body,
      ?_, ?_⟩
    · rw [encodeBase64, hb]
      simp only [List.length_cons, List.cons_append]
      rw [show (rest.length + 1 + 1 + 1) % 3 = rest.length % 3 by omega]
    · simp only [List.mem_cons, not_or]
      exact ⟨fun e => encode6Bit_ne_pad _ e.symm, fun e => encode6Bit_ne_pad _ e.symm,
        fun e => encode6Bit_ne_pad _ e.symm, fun e => encode6Bit_ne_pad _ e.symm, hn⟩
  | case2 x1 x2 =>
    refine ⟨[encode6Bit (x1 >>> 2), encode6Bit (((x1 <<< 4) ||| (x2 >>> 4)) &&& 0x3f),
      encode6Bit ((x2 <<< 2) &&& 0x3f)], by simp [encodeBase64], ?_⟩
    simp only [List.mem_cons, not_or, List.mem_nil_iff, not_false_eq_true, and_true]
    exact ⟨fun e => encode6Bit_ne_pad _ e.symm, fun e => encode6Bit_ne_pad _ e.symm,
      fun e => encode6Bit_ne_pad _ e.symm⟩
  | case3 x1 =>
    refine ⟨[encode6Bit (x1 >>> 2), encode6Bit ((x1 <<< 4) &&& 0x3f)],
      by simp [encodeBase64], ?_⟩
    simp only [List.mem_cons, not_or, List.mem_nil_iff, not_false_eq_true, and_true]
    exact ⟨fun e => encode6Bit_ne_pad _ e.symm, fun e => encode6Bit_ne_pad _ e.symm⟩
  | case4 => exact ⟨[], by simp [encodeBase64], by simp⟩

/-! ## The URL-safe encoder against the direct one -/

theorem urlChar_encode6Bit (x : Nat) : urlChar (encode6Bit x) = encode6BitUrl x := by
  by_cases hx : x < 64
  · interval_cases x <;> decide
  · have h1 : encode6Bit x = '/' := by
      unfold encode6Bit
      rw [if_neg (by omega), if_neg (by omega), if_neg (by omega), if_neg (by omega)]
    have h2 : encode6BitUrl x = '_' := by
      unfold encode6BitUrl
      rw [if_neg (by omega), if_neg (by omega), if_neg (by omega), if_neg (by omega)]
    rw [h1, h2]; decide

theorem map_urlChar_encodeBase64 (B : List Nat) :
    (encodeBase64 B).map urlChar = encodeUrlDirect B := by
  induction B using encodeBase64.induct with
  | case1 x1 x2 x3 rest ih =>
    rw [encodeBase64, encodeUrlDirect]
    simp only [List.map_cons, urlChar_encode6Bit, ih]
  | case2 x1 x2 =>
    rw [encodeBase64, encodeUrlDirect]
    simp only [List.map_cons, List.map_nil, urlChar_encode6Bit]
    rfl
  | case3 x1 =>
    rw [encodeBase64, encodeUrlDirect]
    simp only [List.map_cons, List.map_nil, urlChar_encode6Bit]
    rfl
  | case4 => simp [encodeBase64, encodeUrlDirect]

theorem urlChar_ne_plus (c : Char) : urlChar c ≠ '+' := by
  unfold urlChar
  split_ifs with h1 h2
  · decide
  · decide
  · exact h1

theorem urlChar_ne_slash (c : Char) : urlChar c ≠ '/' := by
  unfold urlChar
  split_ifs with h1 h2
  · decide
  · decide
  · exact h2
/-! ## The characters of one group of the encoder -/

theorem encode6Bit_eq_stdChar (v : Nat) (hv : v < 64) : encode6Bit v = stdChar v := by
  interval_cases v <;> rfl

theorem getD_cons3 (x1 x2 x3 : Nat) (rest : List Nat) (m : Nat) :
    (x1 :: x2 :: x3 :: rest).getD (m + 3) 0 = rest.getD m 0 := by
  simp [List.getD]

theorem getElem?_cons4 (c0 c1 c2 c3 : Char) (E : List Char) (m : Nat) :
    (c0 :: c1 :: c2 :: c3 :: E)[m + 4]? = E[m]? := by
  simp

theorem encodeBase64_group (B : List Nat) :
    ∀ k : Nat, 3 * k < B.length →
      (encodeBase64 B)[4 * k]? = some (encode6Bit (B.getD (3 * k) 0 >>> 2)) ∧
      (encodeBase64 B)[4 * k + 1]? = some (encode6Bit
        (((B.getD (3 * k) 0 <<< 4) ||| (B.getD (3 * k + 1) 0 >>> 4)) &&& 0x3f)) ∧
      (encodeBase64 B)[4 * k + 2]? = some (if 3 * k + 1 < B.length then encode6Bit
        (((B.getD (3 * k + 1) 0 <<< 2) ||| (B.getD (3 * k + 2) 0 >>> 6)) &&& 0x3f) else '=') ∧
      (encodeBase64 B)[4 * k + 3]? = some (if 3 * k + 2 < B.length then encode6Bit
        (B.getD (3 * k + 2) 0 &&& 0x3f) else '=') := by
  induction B using encodeBase64.induct with
  | case1 x1 x2 x3 rest ih =>
    intro k hk
    cases k with
    | zero => simp [encodeBase64, List.getD]
    | succ k =>
      simp only [List.length_cons] at hk
      obtain ⟨h0, h1, h2, h3⟩ := ih k (by omega)
      rw [encodeBase64]
      rw [show 4 * (k + 1) = 4 * k + 4 by omega, show 4 * k + 4 + 1 = 4 * k + 1 + 4 by omega,
        show 4 * k + 4 + 2 = 4 * k + 2 + 4 by omega, show 4 * k + 4 + 3 = 4 * k + 3 + 4 by omega,
        show 3 * (k + 1) = 3 * k + 3 by omega, show 3 * k + 3 + 1 = 3 * k + 1 + 3 by omega,
        show 3 * k + 3 + 2 = 3 * k + 2 + 3 by omega]
      simp only [getElem?_cons4, getD_cons3, List.length_cons]
      rw [h0, h1, h2, h3]
      refine ⟨rfl, rfl, ?_, ?_⟩
      · by_cases c : 3 * k + 1 < rest.length
        · rw [if_pos c, if_pos (by omega)]
        · rw [if_neg c, if_neg (by omega)]
      · by_cases c : 3 * k + 2 < rest.length
        · rw [if_pos c, if_pos (by omega)]
        · rw [if_neg c, if_neg (by omega)]
  | case2 x1 x2 =>
    intro k hk
    simp only [List.length_cons, List.length_nil] at hk
    have : k = 0 := by omega
    subst this
    simp [encodeBase64, List.getD]
  | case3 x1 =>
    intro k hk
    simp only [List.length_cons, List.length_nil] at hk
    have : k = 0 := by omega
    subst this
    simp [encodeBase64, List.getD]
  | case4 => intro k hk; simp at hk
/-! ## The exact condition of acceptance -/

theorem charValue_ne_none_iff (c : Char) (k n p : Nat) :
    charValue c k n p ≠ none ↔ inAlphabet c ∧ (c = '=' → n - p ≤ k) := by
  by_cases hc : c = '='
  · subst hc
    by_cases hk : k < n - p
    · rw [charValue_pad_none k n p hk]
      simp only [ne_eq, not_true_eq_false, true_implies, false_iff, not_and]
      intro _; omega
    · rw [charValue_pad k n p (by omega)]
      simp only [ne_eq, reduceCtorEq, not_false_eq_true, true_implies, true_iff]
      exact ⟨by decide, by omega⟩
  · constructor
    · intro h
      refine ⟨?_, fun e => absurd e hc⟩
      by_contra hna
      exact h (charValue_of_not_inAlphabet c k n p hna)
    · intro ⟨ha, _⟩
      unfold inAlphabet at ha
      unfold charValue
      split_ifs with h1 h2 h3 h4 h5 <;> simp only [ne_eq, reduceCtorEq, not_false_eq_true]
      exfalso
      rcases ha with h | h | h | h | h | h | h | h
      · exact h1 h
      · exact h2 h
      · exact h3 h
      · exact h4 (Or.inl h)
      · exact h5 (Or.inl h)
      · exact h4 (Or.inr h)
      · exact h5 (Or.inr h)
      · exact hc h

theorem decodeBase64Buf_accepts_iff (buf : List Nat) (cap : Nat) (s : List Char) :
    (decodeBase64Buf (some buf) cap s).1 = true ↔
      strlen s % 4 = 0 ∧ (∀ c ∈ cstr s, inAlphabet c) ∧
      (∀ k : Nat, (cstr s)[k]? = some '=' → strlen s - paddingCount s (strlen s) ≤ k) ∧
      strlen s / 4 * 3 - paddingCount s (strlen s) ≤ cap := by
  rw [decodeBase64Buf_fst]
  constructor
  · rintro ⟨-, h4, hcap, hall⟩
    refine ⟨h4, ?_, ?_, hcap⟩
    · intro c hc
      obtain ⟨k, hk⟩ := List.getElem?_of_mem hc
      exact ((charValue_ne_none_iff _ _ _ _).mp (hall k c hk)).1
    · intro k hk
      exact ((charValue_ne_none_iff _ _ _ _).mp (hall k '=' hk)).2 rfl
  · rintro ⟨h4, hin, hpad, hcap⟩
    refine ⟨⟨buf, rfl⟩, h4, hcap, ?_⟩
    intro k c hk
    refine (charValue_ne_none_iff _ _ _ _).mpr ⟨hin c (List.getElem?_mem hk), ?_⟩
    intro e
    subst e
    exact hpad k hk
/-! ## What the loop stores, index by index -/

theorem flushGroup_frame (outLen a j : Nat) (out : List Nat) (m : Nat)
    (hm : m < j ∨ outLen ≤ m) : (flushGroup outLen a j out).2[m]? = out[m]? := by
  rw [flushGroup_eq]
  split_ifs
  · simp only []
    rw [List.getElem?_set_ne (by omega), List.getElem?_set_ne (by omega),
      List.getElem?_set_ne (by omega)]
  · simp only []
    rw [List.getElem?_set_ne (by omega), List.getElem?_set_ne (by omega)]
  · simp only []
    rw [List.getElem?_set_ne (by omega)]
  · rfl

theorem flushGroup_bytes (outLen a j : Nat) (out : List Nat) (hlen : outLen ≤ out.length) :
    (j < outLen → (flushGroup outLen a j out).2[j]? = some ((a >>> 16) % 256)) ∧
    (j + 1 < outLen → (flushGroup outLen a j out).2[j + 1]? = some ((a >>> 8) &&& 0xff)) ∧
    (j + 2 < outLen → (flushGroup outLen a j out).2[j + 2]? = some (a &&& 0xff)) := by
  rw [flushGroup_eq]
  refine ⟨?_, ?_, ?_⟩
  · intro h
    split_ifs
    · simp only []
      rw [List.getElem?_set_ne (by omega), List.getElem?_set_ne (by omega),
        List.getElem?_set_self (by omega)]
    · simp only []
      rw [List.getElem?_set_ne (by omega), List.getElem?_set_self (by omega)]
    · simp only []
      rw [List.getElem?_set_self (by omega)]
    · omega
  · intro h
    split_ifs
    · simp only []
      rw [List.getElem?_set_ne (by omega), List.getElem?_set_self (by simp; omega)]
    · simp only []
      rw [List.getElem?_set_self (by simp; omega)]
    · omega
    · omega
  · intro h
    split_ifs
    · simp only []
      rw [List.getElem?_set_self (by simp; omega)]
    · omega
    · omega
    · omega

theorem decodeLoop_j_le (n p outLen : Nat) (cs : List Char) :
    ∀ (i j accum : Nat) (out : List Nat), j ≤ outLen →
      j ≤ (decodeLoop n p outLen cs i j accum out).2.1 ∧
      (decodeLoop n p outLen cs i j accum out).2.1 ≤ outLen := by
  induction cs with
  | nil => intro i j accum out hj; simp only [decodeLoop]; omega
  | cons c cs ih =>
    intro i j accum out hj
    rw [decodeLoop]
    cases charValue c i n p with
    | none => simp only []; omega
    | some v =>
      simp only []
      split_ifs
      · have h1 := flushGroup_fst outLen ((accum <<< 6 % 2 ^ 32) ||| v) j out hj
        have h2 := ih (i + 1) (flushGroup outLen ((accum <<< 6 % 2 ^ 32) ||| v) j out).1 0
          (flushGroup outLen ((accum <<< 6 % 2 ^ 32) ||| v) j out).2 (by omega)
        omega
      · exact ih _ _ _ _ hj

theorem decodeLoop_frame (n p outLen : Nat) (cs : List Char) :
    ∀ (i j accum : Nat) (out : List Nat) (m : Nat), j ≤ outLen → (m < j ∨ outLen ≤ m) →
      (decodeLoop n p outLen cs i j accum out).2.2[m]? = out[m]? := by
  induction cs with
  | nil => intro i j accum out m _ _; simp only [decodeLoop]
  | cons c cs ih =>
    intro i j accum out m hj hm
    rw [decodeLoop]
    cases charValue c i n p with
    | none => rfl
    | some v =>
      simp only []
      split_ifs
      · have h1 := flushGroup_fst outLen ((accum <<< 6 % 2 ^ 32) ||| v) j out hj
        rw [ih _ _ _ _ m (by omega) (by omega), flushGroup_frame _ _ _ _ _ hm]
      · exact ih _ _ _ _ m hj hm

theorem decodeLoop_bytes (n p outLen : Nat) :
    ∀ (G : Nat) (cs : List Char) (i j : Nat) (out : List Nat), cs.length = 4 * G →
      i % 4 = 0 → j ≤ outLen → outLen ≤ out.length →
      (decodeLoop n p outLen cs i j 0 out).1 = true →
      ∀ (g : Nat) (c0 c1 c2 c3 : Char) (v0 v1 v2 v3 : Nat),
        cs[4 * g]? = some c0 → cs[4 * g + 1]? = some c1 →
        cs[4 * g + 2]? = some c2 → cs[4 * g + 3]? = some c3 →
        charValue c0 (i + 4 * g) n p = some v0 → charValue c1 (i + 4 * g + 1) n p = some v1 →
        charValue c2 (i + 4 * g + 2) n p = some v2 →
        charValue c3 (i + 4 * g + 3) n p = some v3 →
        (j + 3 * g < outLen → (decodeLoop n p outLen cs i j 0 out).2.2[j + 3 * g]?
          = some (((((v0 * 64 + v1) * 64 + v2) * 64 + v3) >>> 16) % 256)) ∧
        (j + 3 * g + 1 < outLen → (decodeLoop n p outLen cs i j 0 out).2.2[j + 3 * g + 1]?
          = some (((((v0 * 64 + v1) * 64 + v2) * 64 + v3) >>> 8) &&& 0xff)) ∧
        (j + 3 * g + 2 < outLen → (decodeLoop n p outLen cs i j 0 out).2.2[j + 3 * g + 2]?
          = some ((((v0 * 64 + v1) * 64 + v2) * 64 + v3) &&& 0xff)) := by
  intro G
  induction G with
  | zero =>
    intro cs i j out hlen _ _ _ _ g c0 c1 c2 c3 v0 v1 v2 v3 h0
    have : cs = [] := List.length_eq_zero.mp (by omega)
    subst this
    simp at h0
  | succ G ih =>
    intro cs i j out hlen hi hj hout hok g c0 c1 c2 c3 v0 v1 v2 v3 h0 h1 h2 h3 e0 e1 e2 e3
    match cs, hlen with
    | d0 :: d1 :: d2 :: d3 :: rest, hlen =>
      simp only [List.length_cons] at hlen
      have hall := (decodeLoop_ok_iff n p outLen _ i j 0 out).mp hok
      obtain ⟨w0, hw0⟩ := Option.ne_none_iff_exists.mp (hall 0 d0 (by simp))
      obtain ⟨w1, hw1⟩ := Option.ne_none_iff_exists.mp (hall 1 d1 (by simp))
      obtain ⟨w2, hw2⟩ := Option.ne_none_iff_exists.mp (hall 2 d2 (by simp))
      obtain ⟨w3, hw3⟩ := Option.ne_none_iff_exists.mp (hall 3 d3 (by simp))
      rw [Nat.add_zero] at hw0
      have hg := decodeLoop_group n p outLen d0 d1 d2 d3 rest i j out w0 w1 w2 w3 hi
        hw0.symm hw1.symm hw2.symm hw3.symm
      rw [hg] at hok ⊢
      have hj1 := flushGroup_fst outLen (((w0 * 64 + w1) * 64 + w2) * 64 + w3) j out hj
      have hl1 := flushGroup_length outLen (((w0 * 64 + w1) * 64 + w2) * 64 + w3) j out
      cases g with
      | zero =>
        simp only [Nat.mul_zero, Nat.zero_add, Nat.add_zero, List.getElem?_cons_zero,
          List.getElem?_cons_succ, Option.some.injEq] at h0 h1 h2 h3 e0 e1 e2 e3 ⊢
        subst h0; subst h1; subst h2; subst h3
        rw [e0] at hw0; rw [e1] at hw1; rw [e2] at hw2; rw [e3] at hw3
        simp only [Option.some.injEq] at hw0 hw1 hw2 hw3
        subst hw0; subst hw1; subst hw2; subst hw3
        obtain ⟨b0, b1, b2⟩ := flushGroup_bytes outLen
          (((w0 * 64 + w1) * 64 + w2) * 64 + w3) j out hout
        refine ⟨?_, ?_, ?_⟩
        · intro h
          rw [decodeLoop_frame _ _ _ _ _ _ _ _ j (by omega) (by omega)]
          exact b0 h
        · intro h
          rw [decodeLoop_frame _ _ _ _ _ _ _ _ (j + 1) (by omega) (by omega)]
          exact b1 h
        · intro h
          rw [decodeLoop_frame _ _ _ _ _ _ _ _ (j + 2) (by omega) (by omega)]
          exact b2 h
      | succ g =>
        have q0 : rest[4 * g]? = some c0 := by
          rw [← h0, show 4 * (g + 1) = 4 * g + 4 by omega]; simp
        have q1 : rest[4 * g + 1]? = some c1 := by
          rw [← h1, show 4 * (g + 1) + 1 = 4 * g + 1 + 4 by omega]; simp
        have q2 : rest[4 * g + 2]? = some c2 := by
          rw [← h2, show 4 * (g + 1) + 2 = 4 * g + 2 + 4 by omega]; simp
        have q3 : rest[4 * g + 3]? = some c3 := by
          rw [← h3, show 4 * (g + 1) + 3 = 4 * g + 3 + 4 by omega]; simp
        have r0 : charValue c0 (i + 4 + 4 * g) n p = some v0 := by
          rw [← e0]; congr 1; omega
        have r1 : charValue c1 (i + 4 + 4 * g + 1) n p = some v1 := by
          rw [← e1]; congr 1; omega
        have r2 : charValue c2 (i + 4 + 4 * g + 2) n p = some v2 := by
          rw [← e2]; congr 1; omega
        have r3 : charValue c3 (i + 4 + 4 * g + 3) n p = some v3 := by
          rw [← e3]; congr 1; omega
        have key := ih rest (i + 4) _ _ (by omega) (by omega) (by rw [hj1]; omega)
          (by rw [hl1]; exact hout) hok g c0 c1 c2 c3 v0 v1 v2 v3 q0 q1 q2 q3 r0 r1 r2 r3
        rw [hj1] at key ⊢
        obtain ⟨k0, k1, k2⟩ := key
        refine ⟨?_, ?_, ?_⟩
        · intro h
          have e : min outLen (j + 3) + 3 * g = j + 3 * (g + 1) := by omega
          rw [e] at k0
          exact k0 h
        · intro h
          have e : min outLen (j + 3) + 3 * g + 1 = j + 3 * (g + 1) + 1 := by omega
          rw [e] at k1
          exact k1 h
        · intro h
          have e : min outLen (j + 3) + 3 * g + 2 = j + 3 * (g + 1) + 2 := by omega
          rw [e] at k2
          exact k2 h

/-! ## The packing of four values into three bytes -/

theorem unpack3 (v0 v1 v2 v3 : Nat) (h0 : v0 < 64) (h1 : v1 < 64) (h2 : v2 < 64)
    (h3 : v3 < 64) :
    ((((v0 * 64 + v1) * 64 + v2) * 64 + v3) >>> 16) % 256 = (v0 <<< 2) ||| (v1 >>> 4) ∧
    ((((v0 * 64 + v1) * 64 + v2) * 64 + v3) >>> 8) &&& 0xff
      = ((v1 &&& 0xf) <<< 4) ||| (v2 >>> 2) ∧
    (((v0 * 64 + v1) * 64 + v2) * 64 + v3) &&& 0xff = ((v2 &&& 0x3) <<< 6) ||| v3 := by
  have m1 : v1 &&& 0xf = v1 % 16 := Nat.and_pow_two_sub_one_eq_mod v1 4
  have m2 : v2 &&& 0x3 = v2 % 4 := Nat.and_pow_two_sub_one_eq_mod v2 2
  have r3 : ((v2 % 4) <<< 6) ||| v3 = (v2 % 4) * 64 + v3 := by
    rw [Nat.shiftLeft_eq, Nat.mul_comm, ← Nat.mul_add_lt_is_or (by omega) (v2 % 4)]
  rw [shl_or_shr v0 v1 2 4 (by omega), m1, shl_or_shr (v1 % 16) v2 4 2 (by omega), m2, r3]
  simp only [and_ff, Nat.shiftRight_eq_div_pow]
  omega

theorem char_range_cases (P : Char → Prop) (c : Char) (lo hi : Nat)
    (h : lo ≤ c.toNat ∧ c.toNat ≤ hi)
    (hP : ∀ m, lo ≤ m → m ≤ hi → P (Char.ofNat m)) : P c := by
  have := hP c.toNat h.1 h.2
  rwa [Char.ofNat_toNat] at this

theorem charValue_eq_sextetValue (c : Char) (i n p v : Nat)
    (h : charValue c i n p = some v) : v = sextetValue c := by
  unfold charValue at h
  simp only [Char.reduceToNat] at h
  split_ifs at h with h1 h2 h3 h4 h5 h6 h7
  · simp only [Option.some.injEq] at h
    subst h
    refine char_range_cases (fun c => c.toNat - 65 = sextetValue c) c 65 90 h1 ?_
    intro m hlo hhi
    interval_cases m <;> rfl
  · simp only [Option.some.injEq] at h
    subst h
    refine char_range_cases (fun c => 26 + c.toNat - 97 = sextetValue c) c 97 122 h2 ?_
    intro m hlo hhi
    interval_cases m <;> rfl
  · simp only [Option.some.injEq] at h
    subst h
    refine char_range_cases (fun c => 52 + c.toNat - 48 = sextetValue c) c 48 57 h3 ?_
    intro m hlo hhi
    interval_cases m <;> rfl
  · simp only [Option.some.injEq] at h
    subst h
    rcases h4 with e | e <;> subst e <;> rfl
  · simp only [Option.some.injEq] at h
    subst h
    rcases h5 with e | e <;> subst e <;> rfl
  · simp only [Option.some.injEq] at h
    subst h
    have e : c = '=' := by
      by_contra hne
      exact h6 hne
    subst e
    rfl

/-! ## The bytes of an accepted text -/

theorem decodeBase64Buf_bytes (s : List Char) (buf : List Nat) (cap : Nat)
    (hbuf : cap ≤ buf.length) (hok : (decodeBase64Buf (some buf) cap s).1 = true) :
    ∃ data, (decodeBase64Buf (some buf) cap s).2.1 = some data ∧
      (∀ m, (decodeBase64Buf (some buf) cap s).2.2 ≤ m → data[m]? = buf[m]?) ∧
      ∀ (g : Nat) (c0 c1 c2 c3 : Char),
        (cstr s)[4 * g]? = some c0 → (cstr s)[4 * g + 1]? = some c1 →
        (cstr s)[4 * g + 2]? = some c2 → (cstr s)[4 * g + 3]? = some c3 →
        (3 * g < (decodeBase64Buf (some buf) cap s).2.2 →
          data[3 * g]? = some ((sextetValue c0 <<< 2) ||| (sextetValue c1 >>> 4))) ∧
        (3 * g + 1 < (decodeBase64Buf (some buf) cap s).2.2 →
          data[3 * g + 1]?
            = some (((sextetValue c1 &&& 0xf) <<< 4) ||| (sextetValue c2 >>> 2))) ∧
        (3 * g + 2 < (decodeBase64Buf (some buf) cap s).2.2 →
          data[3 * g + 2]? = some (((sextetValue c2 &&& 0x3) <<< 6) ||| sextetValue c3)) := by
  have hsnd := decodeBase64Buf_snd buf cap s hok
  obtain ⟨-, h4, hcap, hall⟩ := (decodeBase64Buf_fst _ _ _).mp hok
  have hE := decodeBase64Buf_eq_loop buf cap s h4 hcap
  have hr : (decodeLoop (strlen s) (paddingCount s (strlen s))
      (strlen s / 4 * 3 - paddingCount s (strlen s)) (s.take (strlen s)) 0 0 0 buf).1
      = true := by
    rw [hE] at hok
    by_contra hne
    rw [if_neg hne] at hok
    simp at hok
  rw [if_pos hr] at hE
  rw [hsnd]
  refine ⟨_, by rw [hE], ?_, ?_⟩
  · intro m hm
    exact decodeLoop_frame _ _ _ _ 0 0 0 buf m (Nat.zero_le _) (Or.inr hm)
  · intro g c0 c1 c2 c3 q0 q1 q2 q3
    obtain ⟨v0, e0⟩ := Option.ne_none_iff_exists.mp (hall _ _ q0)
    obtain ⟨v1, e1⟩ := Option.ne_none_iff_exists.mp (hall _ _ q1)
    obtain ⟨v2, e2⟩ := Option.ne_none_iff_exists.mp (hall _ _ q2)
    obtain ⟨v3, e3⟩ := Option.ne_none_iff_exists.mp (hall _ _ q3)
    have s0 := charValue_eq_sextetValue _ _ _ _ _ e0.symm
    have s1 := charValue_eq_sextetValue _ _ _ _ _ e1.symm
    have s2 := charValue_eq_sextetValue _ _ _ _ _ e2.symm
    have s3 := charValue_eq_sextetValue _ _ _ _ _ e3.symm
    obtain ⟨u0, u1, u2⟩ := unpack3 v0 v1 v2 v3 (charValue_lt _ _ _ _ _ e0.symm)
      (charValue_lt _ _ _ _ _ e1.symm) (charValue_lt _ _ _ _ _ e2.symm)
      (charValue_lt _ _ _ _ _ e3.symm)
    have hlen : (s.take (strlen s)).length = 4 * (strlen s / 4) := by
      rw [List.length_take, Nat.min_eq_left (strlen_le s)]
      omega
    have key := decodeLoop_bytes (strlen s) (paddingCount s (strlen s))
      (strlen s / 4 * 3 - paddingCount s (strlen s)) (strlen s / 4) (s.take (strlen s)) 0 0
      buf hlen rfl (Nat.zero_le _) (by omega) hr g c0 c1 c2 c3 v0 v1 v2 v3 q0 q1 q2 q3
      (by rw [Nat.zero_add]; exact e0.symm) (by rw [Nat.zero_add]; exact e1.symm)
      (by rw [Nat.zero_add]; exact e2.symm) (by rw [Nat.zero_add]; exact e3.symm)
    simp only [Nat.zero_add] at key
    rw [u0, u1, u2, s0, s1, s2, s3] at key
    exact key

theorem decodeBase64_bytes (s : List Char) (bytes : List Nat)
    (h : decodeBase64 s = some bytes) :
    ∀ (g : Nat) (c0 c1 c2 c3 : Char),
      (cstr s)[4 * g]? = some c0 → (cstr s)[4 * g + 1]? = some c1 →
      (cstr s)[4 * g + 2]? = some c2 → (cstr s)[4 * g + 3]? = some c3 →
      (3 * g < bytes.length →
        bytes[3 * g]? = some ((sextetValue c0 <<< 2) ||| (sextetValue c1 >>> 4))) ∧
      (3 * g + 1 < bytes.length →
        bytes[3 * g + 1]?
          = some (((sextetValue c1 &&& 0xf) <<< 4) ||| (sextetValue c2 >>> 2))) ∧
      (3 * g + 2 < bytes.length →
        bytes[3 * g + 2]? = some (((sextetValue c2 &&& 0x3) <<< 6) ||| sextetValue c3)) := by
  have hlen := decodeBase64_length s bytes h
  rcases decodeBase64_cases s with ⟨hn, -⟩ | ⟨-, hok, data, hdata, hsome⟩
  · rw [hn] at h; simp at h
  · obtain ⟨d, hd, -, hb⟩ := decodeBase64Buf_bytes s _ _
      (by rw [newABuffer_length]) hok
    rw [hdata, Option.some.injEq] at hd
    subst hd
    rw [hsome, Option.some.injEq] at h
    have hsnd := decodeBase64Buf_snd _ _ _ hok
    intro g c0 c1 c2 c3 q0 q1 q2 q3
    obtain ⟨k0, k1, k2⟩ := hb g c0 c1 c2 c3 q0 q1 q2 q3
    rw [hsnd, ← hlen] at k0 k1 k2
    refine ⟨?_, ?_, ?_⟩
    · intro hlt
      rw [← k0 hlt, ← h, List.getElem?_take_of_lt (by rw [hsnd, ← hlen]; exact hlt)]
    · intro hlt
      rw [← k1 hlt, ← h, List.getElem?_take_of_lt (by rw [hsnd, ← hlen]; exact hlt)]
    · intro hlt
      rw [← k2 hlt, ← h, List.getElem?_take_of_lt (by rw [hsnd, ← hlen]; exact hlt)]

/-! ## The recorded loop: indices stored to and accumulator values -/

theorem flushGroupLog_fst (outLen a j : Nat) (out : List Nat) :
    (flushGroupLog outLen a j out).1 = flushGroup outLen a j out := by
  unfold flushGroupLog flushGroup
  by_cases h1 : j < outLen
  · by_cases h2 : j + 1 < outLen
    · by_cases h3 : j + 1 + 1 < outLen
      · simp only [h1, h2, h3, if_true]
      · simp only [h1, h2, h3, if_true, if_false]
    · simp only [h1, h2, if_true, if_false]
  · simp only [h1, if_false]

theorem flushGroupLog_idx (outLen a j : Nat) (out : List Nat) :
    ∀ idx ∈ (flushGroupLog outLen a j out).2, j ≤ idx ∧ idx < outLen := by
  unfold flushGroupLog
  intro idx
  by_cases h1 : j < outLen
  · by_cases h2 : j + 1 < outLen
    · by_cases h3 : j + 1 + 1 < outLen
      · simp only [h1, h2, h3, if_true, List.mem_append, List.mem_singleton, List.cons_append,
          List.nil_append, List.mem_cons, List.mem_nil_iff, or_false]
        intro h; omega
      · simp only [h1, h2, h3, if_true, if_false, List.mem_append, List.mem_singleton,
          List.cons_append, List.nil_append, List.mem_cons, List.mem_nil_iff, or_false]
        intro h; omega
    · simp only [h1, h2, if_true, if_false, List.mem_singleton]
      intro h; omega
  · simp only [h1, if_false, List.mem_nil_iff]
    intro h; exact absurd h id

theorem decodeLoopLog_fst (n p outLen : Nat) (cs : List Char) :
    ∀ (i j accum : Nat) (out : List Nat),
      (decodeLoopLog n p outLen cs i j accum out).1 = decodeLoop n p outLen cs i j accum out := by
  induction cs with
  | nil => intro i j accum out; rfl
  | cons c cs ih =>
    intro i j accum out
    rw [decodeLoopLog, decodeLoop]
    cases charValue c i n p with
    | none => rfl
    | some v =>
      simp only []
      split_ifs
      · rw [ih, flushGroupLog_fst]
      · rw [ih]

theorem decodeLoopLog_idx (n p outLen : Nat) (cs : List Char) :
    ∀ (i j accum : Nat) (out : List Nat),
      ∀ idx ∈ (decodeLoopLog n p outLen cs i j accum out).2.1, idx < outLen := by
  induction cs with
  | nil => intro i j accum out idx h; simp [decodeLoopLog] at h
  | cons c cs ih =>
    intro i j accum out idx
    rw [decodeLoopLog]
    cases charValue c i n p with
    | none => intro h; simp at h
    | some v =>
      simp only []
      split_ifs
      · intro h
        rcases List.mem_append.mp h with h1 | h2
        · exact (flushGroupLog_idx _ _ _ _ idx h1).2
        · exact ih _ _ _ _ idx h2
      · exact ih _ _ _ _ idx

theorem decodeLoopLog_accum (n p outLen : Nat) (cs : List Char) :
    ∀ (i j accum : Nat) (out : List Nat),
      (i % 4 = 0 → accum = 0) → (i % 4 = 1 → accum < 64) →
      (i % 4 = 2 → accum < 64 * 64) → (i % 4 = 3 → accum < 64 * 64 * 64) →
      ∀ a ∈ (decodeLoopLog n p outLen cs i j accum out).2.2, a < 2 ^ 24 := by
  induction cs with
  | nil => intro i j accum out _ _ _ _ a h; simp [decodeLoopLog] at h
  | cons c cs ih =>
    intro i j accum out b0 b1 b2 b3 a
    rw [decodeLoopLog]
    cases hv : charValue c i n p with
    | none => intro h; simp at h
    | some v =>
      have hv64 := charValue_lt c i n p v hv
      have hacc : accum < 2 ^ 18 := by
        have : i % 4 = 0 ∨ i % 4 = 1 ∨ i % 4 = 2 ∨ i % 4 = 3 := by omega
        rcases this with h | h | h | h
        · have := b0 h; omega
        · have := b1 h; omega
        · have := b2 h; omega
        · have := b3 h; omega
      have e := shl6_or accum v hacc hv64
      simp only []
      split_ifs with h4
      · intro h
        rcases List.mem_cons.mp h with h1 | h2
        · rw [h1, e]
          have := b3 (by omega)
          omega
        · exact ih (i + 1) _ 0 _ (fun _ => rfl) (fun h => by omega) (fun h => by omega)
            (fun h => by omega) a h2
      · rw [e]
        refine ih (i + 1) j _ out (fun h => by omega) ?_ ?_ ?_ a
        · intro h
          have := b0 (by omega)
          omega
        · intro h
          have := b1 (by omega)
          omega
        · intro h
          have := b2 (by omega)
          omega

/-! ## The claims on the encoder -/

/-- C11 (encoder length and padding): for a byte sequence of length `m` the
text of `encodeBase64` has length `4 * ceil(m / 3)`, is empty for the empty
sequence, and is a body without any `=` followed by exactly one `=` when
`m % 3 = 2`, exactly two when `m % 3 = 1` and none when `m % 3 = 0`. -/
theorem encoder_length_and_padding (B : List Nat) :
    (encodeBase64 B).length = 4 * ((B.length + 2) / 3) ∧
    (B = [] → encodeBase64 B = []) ∧
    ∃ body, '=' ∉ body ∧
      encodeBase64 B = body ++ List.replicate
        (if B.length % 3 = 2 then 1 else if B.length % 3 = 1 then 2 else 0) '=' := by
  refine ⟨encodeBase64_length B, ?_, ?_⟩
  · intro h
    subst h
    simp [encodeBase64]
  · obtain ⟨body, hb, hn⟩ := encodeBase64_shape B
    refine ⟨body, hn, ?_⟩
    rw [hb]
    congr 2
    split_ifs <;> omega

/-- C12 (encoder bit extraction): in the text of `encodeBase64 B`, the group
`k` of bytes `b0 b1 b2` (a byte that `B` does not have counting as 0) gives, at
the positions `4k .. 4k+3`, the standard-alphabet characters of `b0 >> 2`,
`((b0 << 4) | (b1 >> 4)) & 0x3f`, `((b1 << 2) | (b2 >> 6)) & 0x3f` and
`b2 & 0x3f`, the third being `=` when `B` has no `b1` and the fourth being `=`
when `B` has no `b2`. -/
theorem encoder_bit_extraction (B : List Nat) (k : Nat) (hB : ∀ b ∈ B, b < 256)
    (hk : 3 * k < B.length) :
    (encodeBase64 B)[4 * k]? = some (stdChar (B.getD (3 * k) 0 >>> 2)) ∧
    (encodeBase64 B)[4 * k + 1]? = some (stdChar
      (((B.getD (3 * k) 0 <<< 4) ||| (B.getD (3 * k + 1) 0 >>> 4)) &&& 0x3f)) ∧
    (encodeBase64 B)[4 * k + 2]? = some (if 3 * k + 1 < B.length then stdChar
      (((B.getD (3 * k + 1) 0 <<< 2) ||| (B.getD (3 * k + 2) 0 >>> 6)) &&& 0x3f) else '=') ∧
    (encodeBase64 B)[4 * k + 3]? = some (if 3 * k + 2 < B.length then stdChar
      (B.getD (3 * k + 2) 0 &&& 0x3f) else '=') := by
  obtain ⟨h0, h1, h2, h3⟩ := encodeBase64_group B k hk
  have hb0 : B.getD (3 * k) 0 < 256 := by
    rw [List.getD_eq_getElem _ _ hk]
    exact hB _ (List.getElem_mem hk)
  rw [h0, h1, h2, h3]
  rw [encode6Bit_eq_stdChar _ (by rw [sextet1]; omega),
    encode6Bit_eq_stdChar _ (by rw [and_3f]; omega),
    encode6Bit_eq_stdChar (_ &&& 0x3f) (by rw [and_3f]; omega),
    encode6Bit_eq_stdChar (B.getD (3 * k + 2) 0 &&& 0x3f) (by rw [and_3f]; omega)]
  exact ⟨rfl, rfl, rfl, rfl⟩

theorem encoder_bit_extraction_witness :
    ((encodeBase64 [0x4D, 0x61, 0x6E])[4 * 0]? = some (stdChar (0x4D >>> 2)) ∧
      (encodeBase64 [0x4D, 0x61, 0x6E])[4 * 0 + 1]?
        = some (stdChar (((0x4D <<< 4) ||| (0x61 >>> 4)) &&& 0x3f)) ∧
      (encodeBase64 [0x4D, 0x61, 0x6E])[4 * 0 + 2]?
        = some (stdChar (((0x61 <<< 2) ||| (0x6E >>> 6)) &&& 0x3f)) ∧
      (encodeBase64 [0x4D, 0x61, 0x6E])[4 * 0 + 3]? = some (stdChar (0x6E &&& 0x3f))) ∧
    encodeBase64 [0x4D, 0x61, 0x6E] = ['T', 'W', 'F', 'u'] ∧
    encodeBase64 [0x4D, 0x61] = ['T', 'W', 'E', '='] ∧
    encodeBase64 [0x4D] = ['T', 'Q', '=', '='] :=
  ⟨encoder_bit_extraction [0x4D, 0x61, 0x6E] 0 (by decide) (by decide),
    by decide, by decide, by decide⟩

/-- C13 (URL-safe encoder equivalence): the text of `encodeBase64Url` is, byte
for byte, the text of the direct encoder with the URL-safe alphabet; it is the
text of `encodeBase64` with every `+` replaced by `-`, every `/` by `_` and
every other character, `=` included, unchanged; it holds neither `+` nor
`/`. -/
theorem url_encoder_equivalence (B : List Nat) :
    encodeBase64Url B = encodeUrlDirect B ∧
    encodeBase64Url B = (encodeBase64 B).map
      (fun c => if c = '+' then '-' else if c = '/' then '_' else c) ∧
    '+' ∉ encodeBase64Url B ∧ '/' ∉ encodeBase64Url B := by
  have h := encodeBase64Url_eq_map B
  refine ⟨by rw [h, map_urlChar_encodeBase64], h, ?_, ?_⟩
  · rw [h]
    intro hm
    obtain ⟨c, -, hc⟩ := List.mem_map.mp hm
    exact urlChar_ne_plus c hc
  · rw [h]
    intro hm
    obtain ⟨c, -, hc⟩ := List.mem_map.mp hm
    exact urlChar_ne_slash c hc

/-! ## The claims on the decoder, continued -/

/-- C14 (empty input): the empty text is accepted and decodes to no byte: the
buffer variant returns `true` for every non-null buffer and every capacity,
leaves the buffer as it was and sets the size to 0, and the owning variant
returns an empty buffer, not null. -/
theorem empty_input_accepted (buf : List Nat) (cap : Nat) :
    decodeBase64Buf (some buf) cap [] = (true, some buf, 0) ∧ decodeBase64 [] = some [] := by
  constructor
  · rw [decodeBase64Buf_eq_loop buf cap [] (by decide) (by simp [strlen, paddingCount])]
    simp [strlen, decodeLoop]
  · decide

/-- C15 (exact acceptance condition): for a text `s` of length `n` (the length
of the `const char *` argument) and a non-null buffer of capacity `cap`, the
buffer variant returns `true` exactly when `n % 4 = 0`, every character is one
of `A-Z`, `a-z`, `0-9`, `+`, `/`, `-`, `_`, `=`, every `=` stands at an index
`k ≥ n - p` with `p` the probed padding count, and `cap ≥ (n / 4) * 3 - p`. -/
theorem exact_acceptance (s : List Char) (buf : List Nat) (cap : Nat) :
    (decodeBase64Buf (some buf) cap s).1 = true ↔
      strlen s % 4 = 0 ∧ (∀ c ∈ cstr s, inAlphabet c) ∧
      (∀ k : Nat, (cstr s)[k]? = some '=' → strlen s - paddingCount s (strlen s) ≤ k) ∧
      strlen s / 4 * 3 - paddingCount s (strlen s) ≤ cap :=
  decodeBase64Buf_accepts_iff buf cap s

/-- C16 (decoder bit packing): when the text `s` is accepted with decoded
length `L`, the group `g` of characters `c0 c1 c2 c3`, of alphabet values
`v0 v1 v2 v3` (`=` counting as 0), gives the bytes `(v0 << 2) | (v1 >> 4)`,
`((v1 & 0xf) << 4) | (v2 >> 2)` and `((v2 & 0x3) << 6) | v3` at those of the
indices `3g`, `3g+1`, `3g+2` that are below `L`, in the caller's buffer and in
the owned buffer; the caller's buffer is left as it was from index `L` on. -/
theorem decoder_bit_packing (s : List Char) (buf : List Nat) (cap g : Nat)
    (c0 c1 c2 c3 : Char) (hbuf : cap ≤ buf.length)
    (hok : (decodeBase64Buf (some buf) cap s).1 = true)
    (q0 : (cstr s)[4 * g]? = some c0) (q1 : (cstr s)[4 * g + 1]? = some c1)
    (q2 : (cstr s)[4 * g + 2]? = some c2) (q3 : (cstr s)[4 * g + 3]? = some c3) :
    (∃ data, (decodeBase64Buf (some buf) cap s).2.1 = some data ∧
      (3 * g < (decodeBase64Buf (some buf) cap s).2.2 →
        data[3 * g]? = some ((sextetValue c0 <<< 2) ||| (sextetValue c1 >>> 4))) ∧
      (3 * g + 1 < (decodeBase64Buf (some buf) cap s).2.2 →
        data[3 * g + 1]?
          = some (((sextetValue c1 &&& 0xf) <<< 4) ||| (sextetValue c2 >>> 2))) ∧
      (3 * g + 2 < (decodeBase64Buf (some buf) cap s).2.2 →
        data[3 * g + 2]? = some (((sextetValue c2 &&& 0x3) <<< 6) ||| sextetValue c3)) ∧
      ∀ m, (decodeBase64Buf (some buf) cap s).2.2 ≤ m → data[m]? = buf[m]?) ∧
    ∀ bytes, decodeBase64 s = some bytes →
      (3 * g < bytes.length →
        bytes[3 * g]? = some ((sextetValue c0 <<< 2) ||| (sextetValue c1 >>> 4))) ∧
      (3 * g + 1 < bytes.length →
        bytes[3 * g + 1]?
          = some (((sextetValue c1 &&& 0xf) <<< 4) ||| (sextetValue c2 >>> 2))) ∧
      (3 * g + 2 < bytes.length →
        bytes[3 * g + 2]? = some (((sextetValue c2 &&& 0x3) <<< 6) ||| sextetValue c3)) := by
  constructor
  · obtain ⟨data, hd, hframe, hb⟩ := decodeBase64Buf_bytes s buf cap hbuf hok
    obtain ⟨k0, k1, k2⟩ := hb g c0 c1 c2 c3 q0 q1 q2 q3
    exact ⟨data, hd, k0, k1, k2, hframe⟩
  · intro bytes h
    exact decodeBase64_bytes s bytes h g c0 c1 c2 c3 q0 q1 q2 q3

theorem decoder_bit_packing_witness :
    (∃ data, (decodeBase64Buf (some [9, 9, 9]) 3 ['T', 'W', 'E', '=']).2.1 = some data ∧
      (3 * 0 < (decodeBase64Buf (some [9, 9, 9]) 3 ['T', 'W', 'E', '=']).2.2 →
        data[3 * 0]? = some ((sextetValue 'T' <<< 2) ||| (sextetValue 'W' >>> 4))) ∧
      (3 * 0 + 1 < (decodeBase64Buf (some [9, 9, 9]) 3 ['T', 'W', 'E', '=']).2.2 →
        data[3 * 0 + 1]?
          = some (((sextetValue 'W' &&& 0xf) <<< 4) ||| (sextetValue 'E' >>> 2))) ∧
      (3 * 0 + 2 < (decodeBase64Buf (some [9, 9, 9]) 3 ['T', 'W', 'E', '=']).2.2 →
        data[3 * 0 + 2]? = some (((sextetValue 'E' &&& 0x3) <<< 6) ||| sextetValue '=')) ∧
      ∀ m, (decodeBase64Buf (some [9, 9, 9]) 3 ['T', 'W', 'E', '=']).2.2 ≤ m →
        data[m]? = [9, 9, 9][m]?) ∧
    ∀ bytes, decodeBase64 ['T', 'W', 'E', '='] = some bytes →
      (3 * 0 < bytes.length →
        bytes[3 * 0]? = some ((sextetValue 'T' <<< 2) ||| (sextetValue 'W' >>> 4))) ∧
      (3 * 0 + 1 < bytes.length →
        bytes[3 * 0 + 1]?
          = some (((sextetValue 'W' &&& 0xf) <<< 4) ||| (sextetValue 'E' >>> 2))) ∧
      (3 * 0 + 2 < bytes.length →
        bytes[3 * 0 + 2]? = some (((sextetValue 'E' &&& 0x3) <<< 6) ||| sextetValue '=')) :=
  decoder_bit_packing ['T', 'W', 'E', '='] [9, 9, 9] 3 0 'T' 'W' 'E' '=' (by decide)
    (by decide) (by decide) (by decide) (by decide) (by decide)

/-- C17 (decoder arithmetic and index safety): for a text whose length `n` is a
multiple of 4, the padding count is at most `(n / 4) * 3` (and at most `n`), so
neither subtraction of the decoder wraps; for a capacity `cap ≥ outLen` the loop
that `decodeBase64Buf` runs stores only at indices below `outLen ≤ cap`, the
accumulator is below `2 ^ 24` at the end of each group, so that `accum >> 16`
is a byte, and on success the final `j`, the size reported, is `outLen`. -/
theorem decoder_index_safety (s : List Char) (buf : List Nat) (cap : Nat)
    (h4 : strlen s % 4 = 0)
    (hcap : strlen s / 4 * 3 - paddingCount s (strlen s) ≤ cap) :
    paddingCount s (strlen s) ≤ strlen s / 4 * 3 ∧ paddingCount s (strlen s) ≤ strlen s ∧
    decodeBase64Buf (some buf) cap s =
      (if (decodeRun s buf).1.1 then (true, some (decodeRun s buf).1.2.2, (decodeRun s buf).1.2.1)
        else (false, some (decodeRun s buf).1.2.2, cap)) ∧
    (∀ idx ∈ (decodeRun s buf).2.1,
      idx < strlen s / 4 * 3 - paddingCount s (strlen s) ∧ idx < cap) ∧
    (∀ a ∈ (decodeRun s buf).2.2, a < 2 ^ 24 ∧ (a >>> 16) % 256 = a >>> 16) ∧
    ((decodeBase64Buf (some buf) cap s).1 = true →
      (decodeRun s buf).1.2.1 = strlen s / 4 * 3 - paddingCount s (strlen s) ∧
      (decodeBase64Buf (some buf) cap s).2.2
        = strlen s / 4 * 3 - paddingCount s (strlen s)) := by
  have hE := decodeBase64Buf_eq_loop buf cap s h4 hcap
  have hfst : (decodeRun s buf).1 = decodeLoop (strlen s) (paddingCount s (strlen s))
      (strlen s / 4 * 3 - paddingCount s (strlen s)) (s.take (strlen s)) 0 0 0 buf :=
    decodeLoopLog_fst _ _ _ _ _ _ _ _
  refine ⟨paddingCount_le_outLen s _ h4, paddingCount_le s _, by rw [hfst]; exact hE, ?_, ?_, ?_⟩
  · intro idx hidx
    have := decodeLoopLog_idx _ _ _ _ _ _ _ _ idx hidx
    exact ⟨this, by omega⟩
  · intro a ha
    have hlt := decodeLoopLog_accum _ _ _ _ 0 0 0 buf (fun _ => rfl) (fun h => by omega)
      (fun h => by omega) (fun h => by omega) a ha
    refine ⟨hlt, ?_⟩
    rw [Nat.shiftRight_eq_div_pow]
    omega
  · intro hok
    have hsnd := decodeBase64Buf_snd buf cap s hok
    refine ⟨?_, hsnd⟩
    rw [hE] at hok hsnd
    rw [hfst]
    split_ifs at hok hsnd with hr
    exact hsnd

theorem decoder_index_safety_witness :
    (∀ idx ∈ (decodeRun ['T', 'W', 'E', '='] [9, 9, 9]).2.1, idx < 2) ∧
    (decodeRun ['T', 'W', 'E', '='] [9, 9, 9]).2.1 = [0, 1] ∧
    (decodeRun ['T', 'W', 'E', '='] [9, 9, 9]).2.2 = [0x4D6100] ∧
    (decodeRun ['T', 'W', 'E', '='] [9, 9, 9]).1.2.1 = 2 :=
  ⟨fun idx h => ((decoder_index_safety ['T', 'W', 'E', '='] [9, 9, 9] 3 (by decide)
      (by decide)).2.2.2.1 idx h).1,
    by decide, by decide, by decide⟩

/-- C18 (the size is untouched on failure): whenever the buffer variant returns
`false`, the in/out size keeps the value the caller passed, also when bytes
were stored before the failure was found. -/
theorem capacity_untouched_on_failure (out : Option (List Nat)) (cap : Nat) (s : List Char)
    (h : (decodeBase64Buf out cap s).1 = false) : (decodeBase64Buf out cap s).2.2 = cap := by
  cases out with
  | none =>
    unfold decodeBase64Buf
    simp only []
    split_ifs <;> rfl
  | some buf =>
    unfold decodeBase64Buf at h ⊢
    simp only [] at h ⊢
    by_cases h1 : strlen s % 4 ≠ 0
    · rw [if_pos h1]
    · rw [if_neg h1] at h ⊢
      by_cases h2 : cap < strlen s / 4 * 3 - paddingCount s (strlen s)
      · rw [if_pos h2]
      · rw [if_neg h2] at h ⊢
        split_ifs at h ⊢ with h3
        rfl

theorem capacity_untouched_on_failure_witness :
    (decodeBase64Buf (some [9, 9, 9, 9, 9, 9]) 6
      ['A', 'A', 'A', 'A', '!', 'A', 'A', 'A']).2.2 = 6 ∧
    decodeBase64Buf (some [9, 9, 9, 9, 9, 9]) 6 ['A', 'A', 'A', 'A', '!', 'A', 'A', 'A']
      = (false, some [0, 0, 0, 9, 9, 9], 6) :=
  ⟨capacity_untouched_on_failure (some [9, 9, 9, 9, 9, 9]) 6
      ['A', 'A', 'A', 'A', '!', 'A', 'A', 'A'] (by decide),
    by decide⟩

/-- C19 (non-canonical texts are accepted): `TR==`, made of standard-alphabet
characters and `=` padding only, is accepted and decodes to the single byte
`0x4D`, whose text is `TQ==`, not `TR==`; `TQ==` decodes to the same byte, so
decoding is not injective on accepted texts. -/
theorem noncanonical_accepted :
    (∀ c ∈ ['T', 'R', '=', '='], c ∈ stdAlphabet ∨ c = '=') ∧
    decodeBase64 ['T', 'R', '=', '='] = some [0x4D] ∧
    encodeBase64 [0x4D] ≠ ['T', 'R', '=', '='] ∧
    decodeBase64 ['T', 'Q', '=', '='] = some [0x4D] ∧
    (['T', 'Q', '=', '='] : List Char) ≠ ['T', 'R', '=', '='] ∧
    ∃ S bytes, (∀ c ∈ S, c ∈ stdAlphabet ∨ c = '=') ∧ decodeBase64 S = some bytes ∧
      encodeBase64 bytes ≠ S := by
  refine ⟨by decide, by decide, by decide, by decide, by decide, ?_⟩
  exact ⟨['T', 'R', '=', '='], [0x4D], by decide, by decide, by decide⟩

/-- C20 (encoder concatenation law): when the length of `A` is a multiple of 3,
the text of `A ++ B` is the text of `A` followed by the text of `B`, for
`encodeBase64` and for `encodeBase64Url`. -/
theorem encoder_concatenation (A B : List Nat) (h : A.length % 3 = 0) :
    encodeBase64 (A ++ B) = encodeBase64 A ++ encodeBase64 B ∧
    encodeBase64Url (A ++ B) = encodeBase64Url A ++ encodeBase64Url B :=
  ⟨encodeBase64_append A B h, encodeBase64Url_append A B h⟩

theorem encoder_concatenation_witness :
    encodeBase64 ([0x4D, 0x61, 0x6E] ++ [0xFF, 0xFB])
      = encodeBase64 [0x4D, 0x61, 0x6E] ++ encodeBase64 [0xFF, 0xFB] ∧
    encodeBase64Url ([0x4D, 0x61, 0x6E] ++ [0xFF, 0xFB])
      = encodeBase64Url [0x4D, 0x61, 0x6E] ++ encodeBase64Url [0xFF, 0xFB] :=
  encoder_concatenation [0x4D, 0x61, 0x6E] [0xFF, 0xFB] (by decide)
end Base64
